import Mathlib

/-!
# A verification model of the motown keyed data adapter

This file gives a shallow embedding of the keyed list-data adapter of
`src/motown.js` (the `keyedDataAdapter` WinJS class and the parts of
`MT.UI.KeyedDataSource` that carry their own logic: `sort`, `setData` and the
closure accessors), together with proofs about the spec's claims for it.

Modelling conventions:

* JavaScript item objects are shared mutable references (the same object is
  reachable through both `this._items` and `this._keyMap`, and `_findIndex`
  compares with `===`).  We model the heap explicitly: an object id is a `Nat`
  index into an allocation list `objs`; `_items` is a list of ids and
  `_keyMap` an association list from string keys to ids.  Mutating a field of
  an item is an update of `objs`, visible through every alias at once.
* `item.index` is the cached index field that WinJS datasource internals may
  or may not have assigned; inside `src/motown.js` it is only ever written by
  `moveToStart`/`moveToEnd` (from `_findIndex`, which can return `-1`), so it
  is modelled as an `Option Int`, `none` playing the role of `undefined`.
* `item._moved` is the sort-replay marker, a `Bool`.
* `Array.prototype.sort` with a comparator is modelled as the stable
  `List.insertionSort` on the ordering `cmp a b ≤ 0`, matching the spec's
  stable-sort reading of the host sort.
* `arr.splice` is only reached with non-negative positions; JS clamps a
  past-the-end start to the length (so a one-element delete there removes
  nothing, and an insert there appends).  `List.eraseIdx` already has the
  delete behaviour; `jsInsertIdx` adds the clamping append for inserts.
* Notifications observable by the sink (the `reload` issued by `_initItems`,
  and the datasource-level `moveToStart`/`moveAfter` calls replayed by
  `sort`) are recorded in an event log carried in the state.
* Operations that would throw a `TypeError` in JS (moving a key that is not
  in `_keyMap` dereferences `undefined`) throw before any mutation, so they
  are modelled as leaving the state unchanged.
-/

namespace Motown

/-- One item object as built by `_initItems`/`insertAtEnd`:
`{ key: ..., data: ... }` plus the two fields other code may add later,
the cached `index` and the `_moved` sort marker. -/
structure Item (ρ : Type) where
  key : String
  data : ρ
  index : Option Int := none
  moved : Bool := false
deriving Repr, DecidableEq

instance {ρ : Type} [Inhabited ρ] : Inhabited (Item ρ) :=
  ⟨{ key := "", data := default }⟩

/-- A notification observable by the sink: the `reload()` call issued by
`_initItems`, or a datasource-level move call replayed by `sort`. -/
inductive Event where
  | reload
  | movedToStart (key : String)
  | movedAfter (key prevKey : String)
deriving Repr, DecidableEq

/-- The fetch error produced by `itemsFromIndex`/`itemsFromKey`:
`WinJS.ErrorFromName(WinJS.UI.FetchError.doesNotExist)`, with the offending
key attached (`err.key = key`) by `itemsFromKey` only. -/
inductive FetchError where
  | doesNotExist (key : Option String)
deriving Repr, DecidableEq

/-- The constructor argument: `Array.isArray(data)` distinguishes a real
array from every other value. -/
inductive JsInput (ρ : Type) where
  | arr (l : List ρ)
  | nonArray
deriving Repr

/-- The state owned by one `keyedDataAdapter` instance.  `keyProp` models the
configured `_keyProperty` extraction `item[this._keyProperty]` on raw items
(the optional `binding` wrapper is an external WinJS collaborator and is out
of scope, i.e. taken as the identity). -/
structure Adapter (ρ : Type) where
  keyProp : ρ → String
  objs : List (Item ρ)
  items : List Nat
  keyMap : List (String × Nat)
  editing : Bool := false
  log : List Event := []

/-- JS object property read `m[k]` on the key map. -/
def jsGet (m : List (String × Nat)) (k : String) : Option Nat :=
  (m.find? (fun p => p.1 == k)).map (·.2)

/-- JS object property write `m[k] = v` on the key map. -/
def jsSet (m : List (String × Nat)) (k : String) (v : Nat) : List (String × Nat) :=
  if m.any (fun p => p.1 == k) then
    m.map (fun p => if p.1 == k then (k, v) else p)
  else m ++ [(k, v)]

/-- JS `delete m[k]` on the key map. -/
def jsDelete (m : List (String × Nat)) (k : String) : List (String × Nat) :=
  m.filter (fun p => p.1 != k)

/-- JS `arr.splice(n, 0, a)` for non-negative `n`: a start past the end is
clamped to the end, so the element is appended. -/
def jsInsertIdx (n : Nat) (a : α) (l : List α) : List α :=
  if l.length < n then l ++ [a] else l.insertIdx n a

/-- JS falsy test for the `key || data[this._keyProperty]` default in
`insertAtEnd`: `null`/`undefined` and the empty string are falsy. -/
def jsOrKey (key : Option String) (derived : String) : String :=
  match key with
  | none => derived
  | some s => if s = "" then derived else s

variable {ρ : Type}

/-- Dereference an object id in the heap. -/
def Adapter.deref [Inhabited ρ] (s : Adapter ρ) (id : Nat) : Item ρ :=
  s.objs.getD id default

/-- Mutate the object behind an id (visible through every alias). -/
def Adapter.setObj (s : Adapter ρ) (id : Nat) (it : Item ρ) : Adapter ρ :=
  { s with objs := s.objs.set id it }

/-- `_findIndex(item)`: linear scan of `this._items` comparing object
identity, returning `-1` when the object is not in the array. -/
def Adapter.findIndex (s : Adapter ρ) (id : Nat) : Int :=
  match s.items.findIdx? (fun x => x == id) with
  | some n => (n : Int)
  | none => -1

/-- `beginEdits` -/
def Adapter.beginEdits (s : Adapter ρ) : Adapter ρ := { s with editing := true }

/-- `endEdits` -/
def Adapter.endEdits (s : Adapter ρ) : Adapter ρ := { s with editing := false }

/-- `getCount` (the value wrapped in the promise). -/
def Adapter.getCount (s : Adapter ρ) : Nat := s.items.length

/-- `_initItems(data, preventReload)`: a non-array argument becomes `[]`;
each raw item is replaced by a fresh `{ key, data }` object and entered into
the rebuilt key map; without `preventReload` the notification handler's
`reload()` is invoked. -/
def Adapter.initItems (s : Adapter ρ) (data : JsInput ρ) (preventReload : Bool) : Adapter ρ :=
  let raws := match data with
    | .arr l => l
    | .nonArray => []
  let objs := raws.map (fun r => ({ key := s.keyProp r, data := r } : Item ρ))
  let keyMap := objs.enum.foldl (fun m p => jsSet m p.2.key p.1) []
  { s with objs := objs, items := List.range objs.length, keyMap := keyMap,
           log := if preventReload then s.log else s.log ++ [Event.reload] }

/-- The `keyedDataAdapter` constructor: stores the configuration and calls
`_initItems(items, true)` (no reload on construction). -/
def mkAdapter (keyProp : ρ → String) (items : JsInput ρ) : Adapter ρ :=
  (Adapter.mk keyProp [] [] [] false []).initItems items true

/-- `KeyedDataSource.setData(data)`: `adapter._initItems(data)` with
`preventReload` left `undefined`, hence falsy. -/
def Adapter.setData (s : Adapter ρ) (data : JsInput ρ) : Adapter ρ :=
  s.initItems data false

/-- The successful result of `itemsFromIndex`. -/
structure IndexFetchResult where
  items : List Nat
  offset : Int
  totalCount : Nat
deriving Repr, DecidableEq

/-- The successful result of `itemsFromKey`; `offset`/`absoluteIndex` are the
raw `item.index` field, which may be `undefined`. -/
structure KeyFetchResult where
  items : List Nat
  offset : Option Int
  absoluteIndex : Option Int
  totalCount : Nat
deriving Repr, DecidableEq

/-- `itemsFromIndex(requestIndex, countBefore, countAfter)`. -/
def Adapter.itemsFromIndex (s : Adapter ρ) (requestIndex : Int)
    (countBefore countAfter : Nat) : Except FetchError IndexFetchResult :=
  let len := s.items.length
  if requestIndex ≥ (len : Int) ∨ requestIndex < 0 then
    .error (.doesNotExist none)
  else
    .ok { items := s.items.take len, offset := requestIndex, totalCount := len }

/-- `itemsFromKey(key, countBefore, countAfter, hints)`. -/
def Adapter.itemsFromKey [Inhabited ρ] (s : Adapter ρ) (key : String)
    (countBefore countAfter : Nat) : Except FetchError KeyFetchResult :=
  match jsGet s.keyMap key with
  | none => .error (.doesNotExist (some key))
  | some id =>
    let item := s.deref id
    .ok { items := s.items.take s.items.length, offset := item.index,
          absoluteIndex := item.index, totalCount := s.items.length }

/-- `insertAtEnd(key, data)`: allocates `{ data, key: key || data[keyProp] }`,
pushes it and enters it into the key map.  (The returned item is the state's
new last object.) -/
def Adapter.insertAtEnd (s : Adapter ρ) (key : Option String) (data : ρ) : Adapter ρ :=
  let k := jsOrKey key (s.keyProp data)
  let it : Item ρ := { key := k, data := data }
  let id := s.objs.length
  { s with objs := s.objs ++ [it], items := s.items ++ [id],
           keyMap := jsSet s.keyMap k id }

/-- `moveAfter(key, prevKey, currIdx, prevItemIdx)`: target `prevItemIdx + 1`
with the removal adjustment `delta`; a set `_moved` marker is consumed
instead of splicing.  `prevKey` is not read by the adapter. -/
def Adapter.moveAfter [Inhabited ρ] (s : Adapter ρ) (key prevKey : String)
    (currIdx prevItemIdx : Nat) : Adapter ρ :=
  match jsGet s.keyMap key with
  | none => s
  | some id =>
    let item := s.deref id
    let newIdx := prevItemIdx + 1
    let delta : Nat := if newIdx > currIdx then 0 else 1
    if item.moved then
      s.setObj id { item with moved := false }
    else
      { s with items := (jsInsertIdx newIdx id s.items).eraseIdx (currIdx + delta) }

/-- `moveToStart(key)`: assigns the cached index from `_findIndex` when it was
never set, consumes a set `_moved` marker, and otherwise splices the item out
at its cached index and reinserts it at the front (only when the cached index
is positive). -/
def Adapter.moveToStart [Inhabited ρ] (s : Adapter ρ) (key : String) : Adapter ρ :=
  match jsGet s.keyMap key with
  | none => s
  | some id =>
    let item0 := s.deref id
    let item := match item0.index with
      | some _ => item0
      | none => { item0 with index := some (s.findIndex id) }
    let s1 := s.setObj id item
    if item.moved then
      s1.setObj id { item with moved := false }
    else
      match item.index with
      | some j => if 0 < j then { s1 with items := id :: s1.items.eraseIdx j.toNat } else s1
      | none => s1

/-- `moveToEnd(key)`: like `moveToStart` but splices out at the cached index
and pushes to the tail (only when the cached index is below `length - 1`). -/
def Adapter.moveToEnd [Inhabited ρ] (s : Adapter ρ) (key : String) : Adapter ρ :=
  match jsGet s.keyMap key with
  | none => s
  | some id =>
    let item0 := s.deref id
    let item := match item0.index with
      | some _ => item0
      | none => { item0 with index := some (s.findIndex id) }
    let s1 := s.setObj id item
    if item.moved then
      s1.setObj id { item with moved := false }
    else
      match item.index with
      | some j =>
        if j < (s1.items.length : Int) - 1 then
          { s1 with items := s1.items.eraseIdx j.toNat ++ [id] }
        else s1
      | none => s1

/-- `remove(key)`: a no-op on an absent key; otherwise the splice position is
the cached index when the `index` property exists, else a `_findIndex` scan,
and both the splice and the map delete are guarded by `idx >= 0`. -/
def Adapter.remove [Inhabited ρ] (s : Adapter ρ) (key : String) : Adapter ρ :=
  match jsGet s.keyMap key with
  | none => s
  | some id =>
    let item := s.deref id
    let idx : Int := match item.index with
      | some j => j
      | none => s.findIndex id
    if 0 ≤ idx then
      { s with items := s.items.eraseIdx idx.toNat, keyMap := jsDelete s.keyMap key }
    else s

/-- `containsKey(key)` of the datasource closure. -/
def Adapter.containsKey (s : Adapter ρ) (key : String) : Bool :=
  (jsGet s.keyMap key).isSome

/-- `get(key)` of the datasource closure (`undefined` on a miss). -/
def Adapter.getVal [Inhabited ρ] (s : Adapter ρ) (key : String) : Option ρ :=
  (jsGet s.keyMap key).map (fun id => (s.deref id).data)

/-- `getAt(idx)` of the datasource closure (`undefined` out of range). -/
def Adapter.getAt [Inhabited ρ] (s : Adapter ρ) (idx : Nat) : Option ρ :=
  (s.items[idx]?).map (fun id => (s.deref id).data)

/-- `getKeys()` of the datasource closure. -/
def Adapter.getKeys (s : Adapter ρ) : List String :=
  s.keyMap.map (·.1)

/-- The ordering the host's stable `Array.prototype.sort` uses for a
three-way comparator. -/
def cmpLE (cmp : ρ → ρ → Int) (a b : ρ) : Prop := cmp a b ≤ 0

instance (cmp : ρ → ρ → Int) : DecidableRel (cmpLE cmp) :=
  fun a b => inferInstanceAs (Decidable (cmp a b ≤ 0))

/-- The comparator lifted to object ids, comparing `a.data` and `b.data` as
the inner sort callback does. -/
def Adapter.idLE [Inhabited ρ] (s : Adapter ρ) (cmp : ρ → ρ → Int) (a b : Nat) : Prop :=
  cmpLE cmp (s.deref a).data (s.deref b).data

instance [Inhabited ρ] (s : Adapter ρ) (cmp : ρ → ρ → Int) : DecidableRel (s.idLE cmp) :=
  fun a b => inferInstanceAs (Decidable (cmpLE cmp _ _))

/-- One iteration of the reconciliation loop of `KeyedDataSource.sort`:
`item = items[i]`; when `i !== item.index` (an unset cached index compares
different from every number) the item is marked `_moved` and the
datasource-level `moveToStart`/`moveAfter` is invoked, which notifies the
sink (logged here) and reenters the adapter, where the marker suppresses a
second splice.  The datasource supplies the index arguments of `moveAfter`;
they are irrelevant because the marker is set, so they are passed as `0`. -/
def Adapter.sortStep [Inhabited ρ] (s : Adapter ρ) (i : Nat) : Adapter ρ :=
  match s.items[i]? with
  | none => s
  | some id =>
    let item := s.deref id
    let changed : Bool := match item.index with
      | none => true
      | some j => (i : Int) != j
    if changed then
      -- `prevKey = (i === 0 ? null : items[i - 1].key)`; `if (!prevKey)` is
      -- also taken for an empty-string key, which is falsy.
      let prevKey : Option String :=
        if i = 0 then none else (s.items[i - 1]?).map (fun pid => (s.deref pid).key)
      match prevKey with
      | none =>
        let s1 := s.setObj id { item with moved := true }
        let s2 := { s1 with log := s1.log ++ [Event.movedToStart item.key] }
        s2.moveToStart item.key
      | some pk =>
        if pk = "" then
          let s1 := s.setObj id { item with moved := true }
          let s2 := { s1 with log := s1.log ++ [Event.movedToStart item.key] }
          s2.moveToStart item.key
        else
          let s1 := s.setObj id { item with moved := true }
          let s2 := { s1 with log := s1.log ++ [Event.movedAfter item.key pk] }
          s2.moveAfter item.key pk 0 0
    else s

/-- The reconciliation loop, iterating `i = len - rem` upwards; called with
`rem = len` it runs `i = 0, 1, ..., len - 1`. -/
def Adapter.sortReplay [Inhabited ρ] (s : Adapter ρ) (len : Nat) : Nat → Adapter ρ
  | 0 => s
  | rem + 1 => (s.sortStep (len - (rem + 1))).sortReplay len rem

/-- `KeyedDataSource.sort(sortFn)`: snapshot `len` and `editing`, stable-sort
the backing array in place with the comparator over `.data`, then replay the
changed positions inside a `beginEdits`/`endEdits` bracket unless the caller
already opened one. -/
def Adapter.sort [Inhabited ρ] (s : Adapter ρ) (cmp : ρ → ρ → Int) : Adapter ρ :=
  let len := s.items.length
  let editing := s.editing
  let s1 := { s with items := s.items.insertionSort (s.idLE cmp) }
  let s2 := if editing then s1 else s1.beginEdits
  let s3 := s2.sortReplay len len
  if editing then s3 else s3.endEdits

end Motown

namespace Motown

/-- The construction entry point with the error channel made explicit: the
spec's taxonomy has an `InvalidInputError` for malformed constructor
arguments, but the constructor body of `keyedDataAdapter` contains no throw
at all (`Array.isArray` silently replaces a non-array input by `[]`), so the
embedding always returns `.ok`. -/
inductive InitError where
  | invalidInput
deriving Repr, DecidableEq

/-- `new keyedDataAdapter(items, options)` with possible failure made
explicit in the type; the body never fails. -/
def mkAdapterE (keyProp : ρ → String) (items : JsInput ρ) : Except InitError (Adapter ρ) :=
  .ok (mkAdapter keyProp items)

/-- A concrete raw record shape for the spec's scenarios, e.g.
`{key:"a", v:3}`. -/
structure RItem where
  key : String
  v : Int
deriving Repr, DecidableEq, Inhabited

/-- The comparator `(x, y) => x.v - y.v` of the spec's concrete scenario. -/
def cmpV (x y : RItem) : Int := x.v - y.v

/-- The store built from `[{key:"a",v:3},{key:"b",v:1},{key:"c",v:2}]`. -/
def stABC : Adapter RItem := mkAdapter RItem.key (.arr [⟨"a", 3⟩, ⟨"b", 1⟩, ⟨"c", 2⟩])

/-- A two-record store `[{key:"a",v:1},{key:"b",v:2}]`. -/
def stAB : Adapter RItem := mkAdapter RItem.key (.arr [⟨"a", 1⟩, ⟨"b", 2⟩])

/-- A two-record store `[{key:"a",v:3},{key:"b",v:1}]` (unsorted). -/
def stBA : Adapter RItem := mkAdapter RItem.key (.arr [⟨"a", 3⟩, ⟨"b", 1⟩])

end Motown

namespace Motown

variable {ρ : Type}

/-- C6: `fetchRange(startIndex, countBefore, countAfter)` fails with
`NotFoundError` if and only if `startIndex` is outside `[0, count)`;
otherwise it succeeds with the entire current sequence (ignoring
`countBefore` and `countAfter`), offset `startIndex` and
`totalCount = count()`. -/
theorem C6_fetchRange (s : Adapter ρ) (i : Int) (cb ca : Nat) :
    ((∃ e, s.itemsFromIndex i cb ca = Except.error e) ↔ ¬(0 ≤ i ∧ i < (s.getCount : Int)))
    ∧ s.itemsFromIndex i cb ca =
        (if 0 ≤ i ∧ i < (s.getCount : Int)
         then Except.ok ⟨s.items, i, s.getCount⟩
         else Except.error (FetchError.doesNotExist none)) := by
  have hiff : (i ≥ (s.items.length : Int) ∨ i < 0) ↔ ¬(0 ≤ i ∧ i < (s.items.length : Int)) := by
    omega
  unfold Adapter.itemsFromIndex Adapter.getCount
  constructor
  · constructor
    · rintro ⟨e, he⟩
      by_contra hin
      rw [if_neg (by omega : ¬(i ≥ (s.items.length : Int) ∨ i < 0))] at he
      exact Except.noConfusion he
    · intro hin
      rw [if_pos (hiff.mpr hin)]
      exact ⟨_, rfl⟩
  · by_cases hin : 0 ≤ i ∧ i < (s.items.length : Int)
    · rw [if_neg (by omega : ¬(i ≥ (s.items.length : Int) ∨ i < 0)), if_pos hin, List.take_length]
    · rw [if_pos (hiff.mpr hin), if_neg hin]

/-- C7: `fetchByKey(key, countBefore, countAfter, hints)` fails if and only
if the key is absent from the key map, the error carries the offending key,
and on a present key it succeeds with the entire sequence, the record's
cached `index` field as both `offset` and `absoluteIndex`, and
`totalCount = count()`; in particular `fetchByKey("z", 0, 0)` on the
three-record store without key `"z"` fails carrying `"z"`. -/
theorem C7_fetchByKey [Inhabited ρ] (s : Adapter ρ) (key : String) (cb ca : Nat) :
    ((∃ e, s.itemsFromKey key cb ca = Except.error e) ↔ jsGet s.keyMap key = none)
    ∧ (∀ e, s.itemsFromKey key cb ca = Except.error e →
        e = FetchError.doesNotExist (some key))
    ∧ (∀ id, jsGet s.keyMap key = some id →
        s.itemsFromKey key cb ca =
          Except.ok ⟨s.items, (s.deref id).index, (s.deref id).index, s.getCount⟩)
    ∧ stABC.itemsFromKey "z" 0 0 = Except.error (FetchError.doesNotExist (some "z")) := by
  refine ⟨⟨?_, ?_⟩, ?_, ?_, rfl⟩
  · rintro ⟨e, he⟩
    unfold Adapter.itemsFromKey at he
    cases h : jsGet s.keyMap key with
    | none => rfl
    | some id => rw [h] at he; exact Except.noConfusion he
  · intro h
    unfold Adapter.itemsFromKey
    rw [h]
    exact ⟨_, rfl⟩
  · intro e he
    unfold Adapter.itemsFromKey at he
    cases h : jsGet s.keyMap key with
    | none => rw [h] at he; exact (Except.error.injEq _ _).mp he |>.symm
    | some id => rw [h] at he; exact Except.noConfusion he
  · intro id h
    unfold Adapter.itemsFromKey Adapter.getCount
    rw [h, List.take_length]

/-- C5 (counterexample): contrary to the claim that `replaceAll` does not by
itself notify the sink of a reload, `setData` calls `_initItems` without
`preventReload`, so a single `reload()` is sent: on the concrete store
(whose log is empty) the log after `setData` is exactly `[reload]`. -/
theorem C5_counterexample :
    stABC.log = [] ∧ (stABC.setData (.arr [⟨"z", 9⟩])).log = [Event.reload] := by
  decide

/-- C5 (amended): `replaceAll(newItems)` discards the current sequence and
mapping and rebuilds them from `newItems` exactly as construction does, and
itself sends exactly one `reload()` notification to the sink (construction,
which passes `preventReload`, sends none). -/
theorem C5_replaceAll (s : Adapter ρ) (d : JsInput ρ) (keyProp : ρ → String) :
    (s.setData d).objs = (mkAdapter s.keyProp d).objs
    ∧ (s.setData d).items = (mkAdapter s.keyProp d).items
    ∧ (s.setData d).keyMap = (mkAdapter s.keyProp d).keyMap
    ∧ (s.setData d).log = s.log ++ [Event.reload]
    ∧ (mkAdapter keyProp d).log = [] := by
  refine ⟨rfl, rfl, rfl, ?_, ?_⟩ <;>
    simp [Adapter.setData, Adapter.initItems, mkAdapter]

/-- C9 (counterexample): contrary to the claim that a non-list raw input
fails with `InvalidInputError`, construction with a non-array argument
succeeds and yields a store with `count() = 0`. -/
theorem C9_counterexample :
    mkAdapterE RItem.key JsInput.nonArray = Except.ok (mkAdapter RItem.key JsInput.nonArray)
    ∧ (mkAdapter RItem.key JsInput.nonArray).getCount = 0 := by
  exact ⟨rfl, rfl⟩

/-- C9 (amended): construction never fails: every input, array or not,
produces `.ok`, and a non-list argument is treated as an empty sequence, so
the resulting store has `count() = 0`. -/
theorem C9_construction (keyProp : ρ → String) (input : JsInput ρ) :
    mkAdapterE keyProp input = Except.ok (mkAdapter keyProp input)
    ∧ (mkAdapter keyProp JsInput.nonArray).getCount = 0 := by
  exact ⟨rfl, rfl⟩

/-- C3 (counterexample): on the store `[a, b]`, `moveToStart("b")` does
physically relocate record `"b"` to the front of the sequence (object id 1
is first, and its key is `"b"`), yet the following `fetchByKey("b", 0, 0)`
reports offset and absolute index `1` — the stale pre-move cached index —
not `0`. -/
theorem C3_counterexample :
    (stAB.moveToStart "b").items = [1, 0]
    ∧ ((stAB.moveToStart "b").deref 1).key = "b"
    ∧ (stAB.moveToStart "b").itemsFromKey "b" 0 0 =
        Except.ok ⟨[1, 0], some 1, some 1, 2⟩
    ∧ (some (1 : Int) ≠ some (0 : Int)) := by
  refine ⟨rfl, rfl, rfl, by decide⟩

/-- C4 (counterexample): on the store `[{key:"a",v:3},{key:"b",v:1}]`,
sorting twice with the same comparator leaves the sequence unchanged, but
the second sort emits one move notification (`moveAfter("a", "b")`) rather
than zero: record `"a"`'s cached index is still unset after the first sort,
so the reconciliation loop treats it as out of place again. -/
theorem C4_counterexample :
    ((stBA.sort cmpV).sort cmpV).items = (stBA.sort cmpV).items
    ∧ (stBA.sort cmpV).log =
        [Event.movedToStart "b", Event.movedAfter "a" "b"]
    ∧ ((stBA.sort cmpV).sort cmpV).log =
        [Event.movedToStart "b", Event.movedAfter "a" "b", Event.movedAfter "a" "b"] := by
  decide

end Motown
namespace Motown

variable {α : Type}

/-- Inserting exactly after a prefix `L` lands between `L` and the tail. -/
theorem insertIdx_length_append (L C : List α) (a : α) :
    (L ++ C).insertIdx L.length a = L ++ a :: C := by
  induction L with
  | nil => rfl
  | cons x xs ih => simpa [List.insertIdx_succ_cons] using ih

/-- Erasing exactly after a prefix `L` removes the head of the tail. -/
theorem eraseIdx_length_append (L : List α) (a : α) (C : List α) :
    (L ++ a :: C).eraseIdx L.length = L ++ C := by
  induction L with
  | nil => rfl
  | cons x xs ih => simpa using ih

/-- Putting the element at position `n` back in front of the erased list is a
permutation of the original list. -/
theorem perm_cons_eraseIdx {l : List α} {n : Nat} {a : α} (h : l[n]? = some a) :
    (a :: l.eraseIdx n).Perm l := by
  induction l generalizing n with
  | nil => simp at h
  | cons x xs ih =>
    cases n with
    | zero =>
      simp at h
      simp [h]
    | succ n =>
      simp only [List.getElem?_cons_succ] at h
      simpa [List.eraseIdx] using (List.Perm.swap x a _).trans ((ih h).cons x)

/-- `map` commutes with `eraseIdx`. -/
theorem map_eraseIdx (f : α → β) (l : List α) (n : Nat) :
    (l.eraseIdx n).map f = (l.map f).eraseIdx n := by
  induction l generalizing n with
  | nil => rfl
  | cons x xs ih =>
    cases n with
    | zero => rfl
    | succ n => simpa using ih n

end Motown

namespace Motown

variable {ρ : Type}

/-- `jsGet` on the result of a fresh `jsSet` appends. -/
theorem jsSet_of_not_mem (m : List (String × Nat)) (k : String) (v : Nat)
    (h : ∀ p ∈ m, p.1 ≠ k) : jsSet m k v = m ++ [(k, v)] := by
  unfold jsSet
  rw [if_neg]
  simp only [List.any_eq_true, beq_iff_eq, not_exists, not_and]
  exact fun p hp => h p hp

/-- A key is found by `jsGet` exactly when some pair carries it. -/
theorem jsGet_eq_some_iff {m : List (String × Nat)} {k : String} {id : Nat}
    (hnd : (m.map Prod.fst).Nodup) :
    jsGet m k = some id ↔ (k, id) ∈ m := by
  constructor
  · intro h
    unfold jsGet at h
    cases hf : m.find? (fun p => p.1 == k) with
    | none => rw [hf] at h; exact Option.noConfusion h
    | some pr =>
      rw [hf] at h
      have hk : pr.1 = k := by simpa using List.find?_some hf
      have hm : pr ∈ m := List.mem_of_find?_eq_some hf
      have : pr = (k, id) := by
        cases pr
        simp only [Option.map_some', Option.some.injEq] at h
        simp_all
      rwa [this] at hm
  · intro h
    unfold jsGet
    have hs : (m.find? (fun p => p.1 == k)).isSome := by
      rw [List.find?_isSome]
      exact ⟨(k, id), h, by simp⟩
    cases hf : m.find? (fun p => p.1 == k) with
    | none => rw [hf] at hs; exact Bool.noConfusion hs
    | some pr =>
      have hk : pr.1 = k := by simpa using List.find?_some hf
      have hm : pr ∈ m := List.mem_of_find?_eq_some hf
      have : pr.2 = id := by
        have h1 : pr.1 = (k, id).1 := by simpa using hk
        have := List.inj_on_of_nodup_map hnd hm h h1
        simp [this]
      simp [this]

/-- A key is missed by `jsGet` exactly when no pair carries it. -/
theorem jsGet_eq_none_iff {m : List (String × Nat)} {k : String} :
    jsGet m k = none ↔ ∀ p ∈ m, p.1 ≠ k := by
  unfold jsGet
  simp

/-- The key of every record in the sequence, in sequence order. -/
def Adapter.seqKeys [Inhabited ρ] (s : Adapter ρ) : List String :=
  s.items.map (fun id => (s.deref id).key)

/-- The association the key map should realize: each live record's key paired
with its object. -/
def Adapter.seqPairs [Inhabited ρ] (s : Adapter ρ) : List (String × Nat) :=
  s.items.map (fun id => ((s.deref id).key, id))

/-- §3 invariant 1, the mapping/sequence bijection: the key map holds, up to
order, exactly one entry per record of the sequence, keyed by that record's
key and naming that record. -/
def Adapter.bijection [Inhabited ρ] (s : Adapter ρ) : Prop :=
  s.keyMap.Perm s.seqPairs

/-- Well-formedness of an adapter state: no duplicate objects in the
sequence, all ids allocated, pairwise-distinct truthy keys, and the
mapping/sequence bijection. -/
def Adapter.Wf [Inhabited ρ] (s : Adapter ρ) : Prop :=
  s.items.Nodup
  ∧ (∀ id ∈ s.items, id < s.objs.length)
  ∧ s.seqKeys.Nodup
  ∧ (∀ id ∈ s.items, (s.deref id).key ≠ "")
  ∧ s.bijection

instance [Inhabited ρ] [DecidableEq ρ] (s : Adapter ρ) : Decidable s.Wf := by
  unfold Adapter.Wf Adapter.bijection
  exact inferInstance

/-- Under well-formedness, `jsGet` hits exactly the live records, through
their keys. -/
theorem Adapter.wf_jsGet [Inhabited ρ] {s : Adapter ρ} (h : s.Wf) (k : String) (id : Nat) :
    jsGet s.keyMap k = some id ↔ id ∈ s.items ∧ (s.deref id).key = k := by
  obtain ⟨hnd, hlt, hknd, htr, hperm⟩ := h
  have hmapnd : (s.keyMap.map Prod.fst).Nodup := by
    refine (hperm.map Prod.fst).nodup_iff.mpr ?_
    simpa [Adapter.seqPairs, Adapter.seqKeys, Function.comp] using hknd
  rw [jsGet_eq_some_iff hmapnd, hperm.mem_iff]
  unfold Adapter.seqPairs
  constructor
  · intro hm
    obtain ⟨id', hid', heq⟩ := List.mem_map.mp hm
    obtain ⟨h1, h2⟩ := Prod.mk.injEq .. ▸ heq
    cases heq
    exact ⟨hid', rfl⟩
  · rintro ⟨hid, rfl⟩
    exact List.mem_map.mpr ⟨id, hid, rfl⟩

/-- Under well-formedness, a missing key means no record carries it. -/
theorem Adapter.wf_jsGet_none [Inhabited ρ] {s : Adapter ρ} (h : s.Wf) (k : String) :
    jsGet s.keyMap k = none ↔ ∀ id ∈ s.items, (s.deref id).key ≠ k := by
  cases hf : jsGet s.keyMap k with
  | none =>
    refine iff_of_true rfl ?_
    intro id hid hkey
    have := (Adapter.wf_jsGet h k id).mpr ⟨hid, hkey⟩
    rw [hf] at this
    exact Option.noConfusion this
  | some id =>
    refine iff_of_false (by simp) ?_
    have := (Adapter.wf_jsGet h k id).mp hf
    exact fun hall => hall id this.1 this.2

end Motown
namespace Motown

variable {ρ : Type}

/-- Updating an allocated object is seen through its own id. -/
theorem Adapter.deref_setObj_self [Inhabited ρ] (s : Adapter ρ) (id : Nat) (it : Item ρ)
    (h : id < s.objs.length) : (s.setObj id it).deref id = it := by
  unfold Adapter.setObj Adapter.deref
  simp [List.getD_eq_getElem?_getD, List.getElem?_set_self', h]

/-- Updating an object leaves every other id untouched. -/
theorem Adapter.deref_setObj_ne [Inhabited ρ] (s : Adapter ρ) (id : Nat) (it : Item ρ)
    (id' : Nat) (h : id' ≠ id) : (s.setObj id it).deref id' = s.deref id' := by
  unfold Adapter.setObj Adapter.deref
  simp [List.getD_eq_getElem?_getD, List.getElem?_set_ne (fun he => h he.symm)]

theorem Adapter.setObj_objs_length (s : Adapter ρ) (id : Nat) (it : Item ρ) :
    (s.setObj id it).objs.length = s.objs.length := by
  simp [Adapter.setObj]

theorem Adapter.setObj_items (s : Adapter ρ) (id : Nat) (it : Item ρ) :
    (s.setObj id it).items = s.items := rfl

theorem Adapter.setObj_keyMap (s : Adapter ρ) (id : Nat) (it : Item ρ) :
    (s.setObj id it).keyMap = s.keyMap := rfl

/-- On a duplicate-free sequence, the identity scan finds the (unique)
position of a contained object. -/
theorem findIdx?_beq_of_nodup {l : List Nat} {p : Nat} {id : Nat}
    (hnd : l.Nodup) (h : l[p]? = some id) :
    l.findIdx? (fun x => x == id) = some p := by
  induction l generalizing p with
  | nil => simp at h
  | cons x xs ih =>
    cases p with
    | zero =>
      simp only [List.getElem?_cons_zero, Option.some.injEq] at h
      subst h
      simp [List.findIdx?_cons]
    | succ p =>
      simp only [List.getElem?_cons_succ] at h
      have hmem : id ∈ xs := List.getElem?_mem h
      have hne : ¬(x == id) := by
        simp only [beq_iff_eq]
        rintro rfl
        exact (List.nodup_cons.mp hnd).1 hmem
      rw [List.findIdx?_cons, if_neg (by simpa using hne), List.findIdx?_succ,
          ih (List.nodup_cons.mp hnd).2 h]
      rfl

/-- `_findIndex` returns the true position of a live object in a
well-formed sequence. -/
theorem Adapter.findIndex_eq [Inhabited ρ] {s : Adapter ρ} {p : Nat} {id : Nat}
    (hnd : s.items.Nodup) (h : s.items[p]? = some id) :
    s.findIndex id = (p : Int) := by
  unfold Adapter.findIndex
  rw [findIdx?_beq_of_nodup hnd h]

/-- A key-preserving object update (cached index or marker) keeps
well-formedness: the sequence, the keys and the map are untouched. -/
theorem Adapter.wf_setObj [Inhabited ρ] {s : Adapter ρ} (h : s.Wf) {id : Nat} {it : Item ρ}
    (hkey : it.key = (s.deref id).key) : (s.setObj id it).Wf := by
  obtain ⟨hnd, hlt, hknd, htr, hperm⟩ := h
  have hkeys : ∀ id' ∈ s.items, ((s.setObj id it).deref id').key = (s.deref id').key := by
    intro id' _
    by_cases he : id' = id
    · subst he
      by_cases hl : id' < s.objs.length
      · rw [Adapter.deref_setObj_self s id' it hl, hkey]
      · unfold Adapter.setObj Adapter.deref
        rw [List.set_eq_of_length_le (by omega)]
    · rw [Adapter.deref_setObj_ne s id it id' he]
  refine ⟨hnd, ?_, ?_, ?_, ?_⟩
  · simpa [Adapter.setObj_objs_length, Adapter.setObj_items] using hlt
  · unfold Adapter.seqKeys
    rw [Adapter.setObj_items, List.map_congr_left (fun x hx => hkeys x hx)]
    exact hknd
  · intro id' hid'
    rw [Adapter.setObj_items] at hid'
    rw [hkeys id' hid']
    exact htr id' hid'
  · unfold Adapter.bijection Adapter.seqPairs
    rw [Adapter.setObj_keyMap, Adapter.setObj_items,
        List.map_congr_left (fun x hx => by rw [hkeys x hx])]
    exact hperm

/-- Replacing the sequence by a permutation of itself (a relocation) keeps
well-formedness. -/
theorem Adapter.wf_perm [Inhabited ρ] {s : Adapter ρ} (h : s.Wf) {items' : List Nat}
    (hp : items'.Perm s.items) : (Adapter.mk s.keyProp s.objs items' s.keyMap s.editing s.log).Wf := by
  obtain ⟨hnd, hlt, hknd, htr, hperm⟩ := h
  refine ⟨hp.nodup_iff.mpr hnd, ?_, ?_, ?_, ?_⟩
  · intro id hid
    exact hlt id (hp.mem_iff.mp hid)
  · unfold Adapter.seqKeys at *
    exact (hp.map _).nodup_iff.mpr hknd
  · intro id hid
    exact htr id (hp.mem_iff.mp hid)
  · unfold Adapter.bijection Adapter.seqPairs at *
    exact hperm.trans (hp.map _).symm

end Motown
namespace Motown

variable {ρ : Type}

/-- C8: with the `_moved` marker unset and called with the true current
positions of the two records (`currIdx` the position of `key`'s record,
`afterIdx` the position of `afterKey`'s record), `moveAfter` relocates the
record identified by `key` to the position immediately following the record
identified by `afterKey`, leaving the relative order of all other records
unchanged.  The two conjuncts cover a forward move (the record currently
precedes `afterKey`'s record, removal adjustment `delta = 0`) and a backward
move (it currently follows it, `delta = 1`), stated by decomposing the
sequence around the two records. -/
theorem C8_moveAfter [Inhabited ρ] (s : Adapter ρ) (k ak : String) (id aid : Nat)
    (A B C : List Nat)
    (hk : jsGet s.keyMap k = some id)
    (hmv : (s.deref id).moved = false) :
    (s.items = A ++ id :: (B ++ aid :: C) →
      (s.moveAfter k ak A.length (A.length + 1 + B.length)).items
        = A ++ (B ++ aid :: id :: C))
    ∧ (s.items = A ++ aid :: (B ++ id :: C) →
      (s.moveAfter k ak (A.length + 1 + B.length) A.length).items
        = A ++ aid :: id :: (B ++ C)) := by
  constructor
  · intro hitems
    have hlen : s.items.length = A.length + B.length + C.length + 2 := by
      simp [hitems]; omega
    unfold Adapter.moveAfter
    rw [hk]
    simp only [hmv, Bool.false_eq_true, if_false]
    rw [if_pos (by omega : A.length + 1 + B.length + 1 > A.length)]
    unfold jsInsertIdx
    rw [if_neg (by omega : ¬ s.items.length < A.length + 1 + B.length + 1)]
    have h1 : s.items = (A ++ id :: B ++ [aid]) ++ C := by
      simp [hitems]
    have h2 : A.length + 1 + B.length + 1 = (A ++ id :: B ++ [aid]).length := by
      simp; omega
    rw [h1, h2, insertIdx_length_append]
    have h3 : (A ++ id :: B ++ [aid]) ++ id :: C = A ++ id :: (B ++ aid :: id :: C) := by
      simp
    rw [h3, Nat.add_zero, eraseIdx_length_append]
  · intro hitems
    have hlen : s.items.length = A.length + B.length + C.length + 2 := by
      simp [hitems]; omega
    unfold Adapter.moveAfter
    rw [hk]
    simp only [hmv, Bool.false_eq_true, if_false]
    rw [if_neg (by omega : ¬ A.length + 1 > A.length + 1 + B.length)]
    unfold jsInsertIdx
    rw [if_neg (by omega : ¬ s.items.length < A.length + 1)]
    have h1 : s.items = (A ++ [aid]) ++ (B ++ id :: C) := by
      simp [hitems]
    have h2 : A.length + 1 = (A ++ [aid]).length := by simp
    have h3 : (A ++ [aid]) ++ id :: (B ++ id :: C)
        = (A ++ aid :: id :: B) ++ id :: C := by
      simp
    have h4 : A.length + 1 + B.length + 1 = (A ++ aid :: id :: B).length := by
      simp; omega
    rw [h4, h1, h2, insertIdx_length_append, h3, eraseIdx_length_append]
    simp

/-- Witness for C8 on the three-record store: moving `"a"` (position 0) to
just after `"b"` (position 1) yields the order `b, a, c`. -/
theorem C8_moveAfter_witness :
    (stABC.moveAfter "a" "b" 0 1).items = [1, 0, 2] := by
  have h := (C8_moveAfter stABC "a" "b" 0 1 [] [] [2] rfl rfl).1 rfl
  simpa using h

end Motown
namespace Motown

variable {ρ : Type}

/-- `moveToStart` on a present record whose cached index is already set:
no assignment happens, and with the marker unset the record is spliced out
at the cached index (right or wrong) and reinserted at the front, provided
the cached index is positive. -/
theorem Adapter.moveToStart_spec_someIdx [Inhabited ρ] {s : Adapter ρ} {k : String}
    {id : Nat} {j : Int}
    (hk : jsGet s.keyMap k = some id)
    (hidx : (s.deref id).index = some j)
    (hmv : (s.deref id).moved = false) :
    s.moveToStart k =
      (if 0 < j then
        { s.setObj id (s.deref id) with
            items := id :: s.items.eraseIdx j.toNat }
      else s.setObj id (s.deref id)) := by
  unfold Adapter.moveToStart
  rw [hk]
  simp only [hidx, hmv, Bool.false_eq_true, if_false]
  rfl

/-- `moveToStart` on a present record whose cached index was never set: the
cached index is first assigned from `_findIndex`, then the splice happens at
that (current) position when it is positive. -/
theorem Adapter.moveToStart_spec_noneIdx [Inhabited ρ] {s : Adapter ρ} {k : String}
    {id : Nat}
    (hk : jsGet s.keyMap k = some id)
    (hidx : (s.deref id).index = none)
    (hmv : (s.deref id).moved = false) :
    s.moveToStart k =
      (if 0 < s.findIndex id then
        { s.setObj id { s.deref id with index := some (s.findIndex id) } with
            items := id :: s.items.eraseIdx (s.findIndex id).toNat }
      else s.setObj id { s.deref id with index := some (s.findIndex id) }) := by
  unfold Adapter.moveToStart
  rw [hk]
  simp only [hidx, hmv, Bool.false_eq_true, if_false]
  rfl

/-- `moveToEnd` on a present record with a set cached index: splices out at
the cached index and pushes to the tail, provided the cached index is below
`length - 1`. -/
theorem Adapter.moveToEnd_spec_someIdx [Inhabited ρ] {s : Adapter ρ} {k : String}
    {id : Nat} {j : Int}
    (hk : jsGet s.keyMap k = some id)
    (hidx : (s.deref id).index = some j)
    (hmv : (s.deref id).moved = false) :
    s.moveToEnd k =
      (if j < (s.items.length : Int) - 1 then
        { s.setObj id (s.deref id) with
            items := s.items.eraseIdx j.toNat ++ [id] }
      else s.setObj id (s.deref id)) := by
  unfold Adapter.moveToEnd
  rw [hk]
  simp only [hidx, hmv, Bool.false_eq_true, if_false]
  rfl

/-- `moveToEnd` on a present record with an unset cached index. -/
theorem Adapter.moveToEnd_spec_noneIdx [Inhabited ρ] {s : Adapter ρ} {k : String}
    {id : Nat}
    (hk : jsGet s.keyMap k = some id)
    (hidx : (s.deref id).index = none)
    (hmv : (s.deref id).moved = false) :
    s.moveToEnd k =
      (if s.findIndex id < (s.items.length : Int) - 1 then
        { s.setObj id { s.deref id with index := some (s.findIndex id) } with
            items := s.items.eraseIdx (s.findIndex id).toNat ++ [id] }
      else s.setObj id { s.deref id with index := some (s.findIndex id) }) := by
  unfold Adapter.moveToEnd
  rw [hk]
  simp only [hidx, hmv, Bool.false_eq_true, if_false]
  rfl

/-- `remove` on a present record with a set, non-negative cached index:
splices at the cached value (right or wrong) and deletes the map entry. -/
theorem Adapter.remove_spec_someIdx [Inhabited ρ] {s : Adapter ρ} {k : String}
    {id : Nat} {j : Int}
    (hk : jsGet s.keyMap k = some id)
    (hidx : (s.deref id).index = some j)
    (hj : 0 ≤ j) :
    s.remove k =
      { s with items := s.items.eraseIdx j.toNat, keyMap := jsDelete s.keyMap k } := by
  unfold Adapter.remove
  rw [hk]
  simp only [hidx]
  rw [if_pos hj]

/-- `remove` on a present record with an unset cached index falls back to the
`_findIndex` scan. -/
theorem Adapter.remove_spec_noneIdx [Inhabited ρ] {s : Adapter ρ} {k : String}
    {id : Nat}
    (hk : jsGet s.keyMap k = some id)
    (hidx : (s.deref id).index = none)
    (hj : 0 ≤ s.findIndex id) :
    s.remove k =
      { s with items := s.items.eraseIdx (s.findIndex id).toNat,
               keyMap := jsDelete s.keyMap k } := by
  unfold Adapter.remove
  rw [hk]
  simp only [hidx]
  rw [if_pos hj]

end Motown
namespace Motown

variable {ρ : Type}

/-- C3 (amended): on a well-formed state, `moveToStart(k)` applied to a
record with an unset cached index and unset marker at true position `p` does
physically relocate the record to the head of the sequence, but a following
`fetchByKey(k, ...)` reports the pre-move position `p` — not `0` — as both
the relative offset and the absolute index, because `moveToStart` assigns
the cached index from `_findIndex` before the splice and never updates it
afterwards.  The claimed result `0` is obtained only when `p = 0`. -/
theorem C3_moveToStart_fetch [Inhabited ρ] (s : Adapter ρ) (k : String) (id p : Nat)
    (cb ca : Nat)
    (hobj : id < s.objs.length)
    (hk : jsGet s.keyMap k = some id)
    (hidx : (s.deref id).index = none)
    (hmv : (s.deref id).moved = false)
    (hnd : s.items.Nodup)
    (hp : s.items[p]? = some id) :
    (s.moveToStart k).items.head? = some id
    ∧ (s.moveToStart k).itemsFromKey k cb ca =
        Except.ok ⟨(s.moveToStart k).items, some (p : Int), some (p : Int),
                   (s.moveToStart k).items.length⟩ := by
  have hfind : s.findIndex id = (p : Int) :=
    Adapter.findIndex_eq hnd hp
  have hch := Adapter.moveToStart_spec_noneIdx hk hidx hmv
  rw [hfind] at hch
  by_cases hp0 : 0 < (p : Int)
  · rw [if_pos hp0] at hch
    refine ⟨by rw [hch]; rfl, ?_⟩
    rw [hch]
    simp only [Adapter.itemsFromKey, Adapter.setObj]
    rw [show jsGet s.keyMap k = some id from hk]
    simp [Adapter.deref, List.getD_eq_getElem?_getD, List.getElem?_set_self', hobj,
          List.take_length]
  · rw [if_neg hp0] at hch
    have hp' : p = 0 := by omega
    subst hp'
    refine ⟨?_, ?_⟩
    · rw [hch, Adapter.setObj_items, List.head?_eq_getElem?, hp]
    · rw [hch]
      simp only [Adapter.itemsFromKey, Adapter.setObj]
      rw [show jsGet s.keyMap k = some id from hk]
      simp [Adapter.deref, List.getD_eq_getElem?_getD, List.getElem?_set_self', hobj,
            List.take_length]

/-- Witness for C3 (amended) on the two-record store `[a, b]`: after
`moveToStart("b")` the record is physically first, and `fetchByKey("b")`
reports offset and absolute index `1`. -/
theorem C3_moveToStart_fetch_witness :
    (stAB.moveToStart "b").items.head? = some 1
    ∧ (stAB.moveToStart "b").itemsFromKey "b" 0 0 =
        Except.ok ⟨(stAB.moveToStart "b").items, some 1, some 1,
                   (stAB.moveToStart "b").items.length⟩ :=
  C3_moveToStart_fetch stAB "b" 1 1 0 0 (by decide) rfl rfl rfl (by decide) rfl

end Motown
namespace Motown

variable {ρ : Type}

/-- The adapter-level `moveToStart` never logs (notifications are issued by
the datasource layer, not the adapter). -/
theorem Adapter.moveToStart_log [Inhabited ρ] (s : Adapter ρ) (k : String) :
    (s.moveToStart k).log = s.log := by
  unfold Adapter.moveToStart
  cases h : jsGet s.keyMap k with
  | none => rfl
  | some id =>
    dsimp only
    repeat' split
    all_goals rfl

/-- The adapter-level `moveAfter` never logs. -/
theorem Adapter.moveAfter_log [Inhabited ρ] (s : Adapter ρ) (k pk : String) (c q : Nat) :
    (s.moveAfter k pk c q).log = s.log := by
  unfold Adapter.moveAfter
  cases h : jsGet s.keyMap k with
  | none => rfl
  | some id =>
    dsimp only
    repeat' split
    all_goals rfl

/-- C10: move operations do not refresh the cached `index` field.  With a
record present under `k` at true position `p` and its cached index set to
`p` (so the moves relocate it correctly), marker unset, `0 < p` and
`p + 1 < count`:
`moveAfter` leaves the whole object heap unchanged (so every cached index,
including the moved record's, keeps its pre-move value); `moveToStart` and
`moveToEnd` physically relocate the record to the head resp. the tail while
its stored index still holds the pre-move value `p`; a later `fetchByKey`
reports that stale `p` as offset and absolute index; a later `remove`
splices at the cached position; and the reconciliation test of `sort`
(final conjunct, stated for every state) compares the loop position `i`
against the cached index — it treats the record as unmoved exactly when
`i` equals the cached value, and otherwise emits one move notification. -/
theorem C10_stale_index [Inhabited ρ] (s : Adapter ρ) (k : String) (id p : Nat)
    (cb ca : Nat)
    (hobj : id < s.objs.length)
    (hk : jsGet s.keyMap k = some id)
    (hj : (s.deref id).index = some (p : Int))
    (hmv : (s.deref id).moved = false)
    (hnd : s.items.Nodup)
    (hp : s.items[p]? = some id)
    (hp0 : 0 < p)
    (hpl : p + 1 < s.items.length) :
    (∀ (pk : String) (c q : Nat), (s.moveAfter k pk c q).objs = s.objs)
    ∧ (((s.moveToStart k).deref id).index = some (p : Int)
        ∧ (s.moveToStart k).items.head? = some id)
    ∧ (((s.moveToEnd k).deref id).index = some (p : Int)
        ∧ (s.moveToEnd k).items.getLast? = some id)
    ∧ (s.moveToStart k).itemsFromKey k cb ca =
        Except.ok ⟨(s.moveToStart k).items, some (p : Int), some (p : Int),
                   (s.moveToStart k).items.length⟩
    ∧ ((s.remove k).items = s.items.eraseIdx p
        ∧ (s.remove k).keyMap = jsDelete s.keyMap k)
    ∧ (∀ (t : Adapter ρ) (i id' : Nat) (j' : Int),
        t.items[i]? = some id' → (t.deref id').index = some j' →
          (((i : Int) = j' → t.sortStep i = t)
            ∧ ((i : Int) ≠ j' → (t.sortStep i).log.length = t.log.length + 1))) := by
  have hstart := Adapter.moveToStart_spec_someIdx hk hj hmv
  rw [if_pos (by exact_mod_cast hp0)] at hstart
  have hend := Adapter.moveToEnd_spec_someIdx hk hj hmv
  rw [if_pos (by omega : ((p : Nat) : Int) < (s.items.length : Int) - 1)] at hend
  refine ⟨?_, ⟨?_, ?_⟩, ⟨?_, ?_⟩, ?_, ?_, ?_⟩
  · intro pk c q
    unfold Adapter.moveAfter
    rw [hk]
    simp only [hmv, Bool.false_eq_true, if_false]
  · rw [hstart]
    show ((s.setObj id (s.deref id)).deref id).index = some (p : Int)
    rw [Adapter.deref_setObj_self s id _ hobj, hj]
  · rw [hstart]
    rfl
  · rw [hend]
    show ((s.setObj id (s.deref id)).deref id).index = some (p : Int)
    rw [Adapter.deref_setObj_self s id _ hobj, hj]
  · rw [hend]
    show (s.items.eraseIdx ((p : Int)).toNat ++ [id]).getLast? = some id
    rw [List.getLast?_concat]
  · have hj' : s.objs[id].index = some (p : Int) := by
      have := hj
      rwa [Adapter.deref, List.getD_eq_getElem?_getD, List.getElem?_eq_getElem hobj] at this
    rw [hstart]
    simp only [Adapter.itemsFromKey, Adapter.setObj]
    rw [show jsGet s.keyMap k = some id from hk]
    simp [Adapter.deref, List.getD_eq_getElem?_getD, List.getElem?_set_self', hobj, hj',
          List.take_length]
  · have hrm := Adapter.remove_spec_someIdx hk hj (by positivity)
    rw [hrm]
    constructor
    · show s.items.eraseIdx ((p : Int)).toNat = s.items.eraseIdx p
      norm_num
    · rfl
  · intro t i id' j' hti htj
    unfold Adapter.sortStep
    rw [hti]
    dsimp only
    rw [htj]
    have hred : (match some j' with
        | none => true
        | some j => ((i : Int) != j)) = ((i : Int) != j') := rfl
    rw [hred]
    constructor
    · intro hij
      rw [show ((i : Int) != j') = false by simp [hij]]
      rfl
    · intro hij
      rw [show ((i : Int) != j') = true by simpa using hij]
      simp only [if_true]
      split
      · rw [Adapter.moveToStart_log]
        simp [Adapter.setObj]
      · split
        · rw [Adapter.moveToStart_log]
          simp [Adapter.setObj]
        · rw [Adapter.moveAfter_log]
          simp [Adapter.setObj]

/-- A concrete state (three records, `"b"` in the middle with an accurate
host-assigned cached index) exercising the stale-index theorem. -/
def c10st : Adapter RItem :=
  { keyProp := RItem.key,
    objs := [{ key := "a", data := ⟨"a", 1⟩ },
             { key := "b", data := ⟨"b", 2⟩, index := some 1 },
             { key := "c", data := ⟨"c", 3⟩ }],
    items := [0, 1, 2],
    keyMap := [("a", 0), ("b", 1), ("c", 2)] }

/-- Witness for C10: after `moveToStart("b")` on the concrete state, the
record is physically first but its cached index still reads `1`. -/
theorem C10_stale_index_witness :
    ((c10st.moveToStart "b").deref 1).index = some 1
    ∧ (c10st.moveToStart "b").items.head? = some 1 :=
  (C10_stale_index c10st "b" 1 1 0 0 (by decide) rfl rfl rfl (by decide) rfl
    (by decide) (by decide)).2.1

end Motown
namespace Motown

variable {ρ : Type}

/-- Writing the same id twice keeps only the last object. -/
theorem Adapter.setObj_setObj (s : Adapter ρ) (id : Nat) (a b : Item ρ) :
    (s.setObj id a).setObj id b = s.setObj id b := by
  unfold Adapter.setObj
  simp [List.set_set]

/-- What the sort replay preserves: the sequence, the key map, and every
object's key, payload and marker (only cached indices may change). -/
def FrameEq [Inhabited ρ] (t t' : Adapter ρ) : Prop :=
  t'.items = t.items ∧ t'.keyMap = t.keyMap
  ∧ t'.objs.length = t.objs.length
  ∧ ∀ id : Nat, (t'.deref id).key = (t.deref id).key
      ∧ (t'.deref id).data = (t.deref id).data
      ∧ (t'.deref id).moved = (t.deref id).moved

theorem FrameEq.refl [Inhabited ρ] (t : Adapter ρ) : FrameEq t t :=
  ⟨rfl, rfl, rfl, fun _ => ⟨rfl, rfl, rfl⟩⟩

theorem FrameEq.trans [Inhabited ρ] {t u v : Adapter ρ}
    (h1 : FrameEq t u) (h2 : FrameEq u v) : FrameEq t v := by
  obtain ⟨a1, b1, d1, e1⟩ := h1
  obtain ⟨a2, b2, d2, e2⟩ := h2
  exact ⟨a2.trans a1, b2.trans b1, d2.trans d1,
    fun id => ⟨(e2 id).1.trans (e1 id).1, (e2 id).2.1.trans (e1 id).2.1,
      (e2 id).2.2.trans (e1 id).2.2⟩⟩

/-- The conditions under which `sort`'s replay is reentrant-safe: a
duplicate-free sequence of allocated objects, each reachable from its own
key through the map, with no marker set. -/
def Adapter.SortSafe [Inhabited ρ] (s : Adapter ρ) : Prop :=
  s.items.Nodup
  ∧ (∀ id ∈ s.items, id < s.objs.length)
  ∧ (∀ id ∈ s.items, jsGet s.keyMap ((s.deref id).key) = some id)
  ∧ (∀ id ∈ s.items, (s.deref id).moved = false)

instance [Inhabited ρ] [DecidableEq ρ] (s : Adapter ρ) : Decidable s.SortSafe := by
  unfold Adapter.SortSafe
  exact inferInstance

theorem Adapter.sortSafe_of_frameEq [Inhabited ρ] {t t' : Adapter ρ}
    (hF : FrameEq t t') (hS : t.SortSafe) : t'.SortSafe := by
  obtain ⟨hi, hm, hl, hf⟩ := hF
  obtain ⟨s1, s2, s3, s4⟩ := hS
  rw [Adapter.SortSafe, hi, hm, hl]
  refine ⟨s1, s2, ?_, ?_⟩
  · intro id hid
    rw [(hf id).1]
    exact s3 id hid
  · intro id hid
    rw [(hf id).2.2]
    exact s4 id hid

/-- `moveToStart` on a record whose `_moved` marker is set and whose cached
index was never assigned: the cached index is assigned from `_findIndex` and
the marker is consumed; the sequence is untouched. -/
theorem Adapter.moveToStart_marked_none [Inhabited ρ] (t : Adapter ρ) (k : String) (id : Nat)
    (hk : jsGet t.keyMap k = some id)
    (hmv : (t.deref id).moved = true)
    (hidx : (t.deref id).index = none) :
    t.moveToStart k =
      t.setObj id { t.deref id with index := some (t.findIndex id), moved := false } := by
  unfold Adapter.moveToStart
  rw [hk]
  dsimp only
  rw [hidx]
  dsimp only
  rw [hmv, if_pos rfl, Adapter.setObj_setObj]

/-- `moveToStart` on a record whose `_moved` marker is set and whose cached
index is set: only the marker is consumed; the sequence is untouched. -/
theorem Adapter.moveToStart_marked_some [Inhabited ρ] (t : Adapter ρ) (k : String) (id : Nat)
    (j : Int)
    (hk : jsGet t.keyMap k = some id)
    (hmv : (t.deref id).moved = true)
    (hidx : (t.deref id).index = some j) :
    t.moveToStart k = t.setObj id { t.deref id with moved := false } := by
  unfold Adapter.moveToStart
  rw [hk]
  dsimp only
  rw [hidx]
  dsimp only
  rw [hmv, if_pos rfl, Adapter.setObj_setObj, hidx]

/-- `moveAfter` on a record whose `_moved` marker is set only consumes the
marker. -/
theorem Adapter.moveAfter_marked [Inhabited ρ] (t : Adapter ρ) (k pk : String)
    (c q : Nat) (id : Nat)
    (hk : jsGet t.keyMap k = some id)
    (hmv : (t.deref id).moved = true) :
    t.moveAfter k pk c q = t.setObj id { t.deref id with moved := false } := by
  unfold Adapter.moveAfter
  rw [hk]
  dsimp only
  rw [hmv, if_pos rfl]

end Motown
namespace Motown

variable {ρ : Type}

/-- Collapsing a double write through an interposed log update. -/
theorem Adapter.setObj_log_setObj (t : Adapter ρ) (id : Nat) (a b : Item ρ)
    (lg : List Event) :
    ({ t.setObj id a with log := lg } : Adapter ρ).setObj id b
      = { t.setObj id b with log := lg } := by
  unfold Adapter.setObj
  simp [List.set_set]

/-- A single field-preserving object write plus a log change is a frame
step: sequence, map and every object's key/payload/marker survive. -/
theorem FrameEq.setObj_log [Inhabited ρ] (t : Adapter ρ) (id : Nat) (b : Item ρ)
    (lg : List Event)
    (hobj : id < t.objs.length)
    (hkey : b.key = (t.deref id).key) (hdata : b.data = (t.deref id).data)
    (hmoved : b.moved = (t.deref id).moved) :
    FrameEq t { t.setObj id b with log := lg } := by
  refine ⟨rfl, rfl, by simp [Adapter.setObj], ?_⟩
  intro id'
  by_cases he : id' = id
  · subst he
    have hd : ({ t.setObj id' b with log := lg } : Adapter ρ).deref id' = b :=
      Adapter.deref_setObj_self t id' b hobj
    rw [hd]
    exact ⟨hkey, hdata, hmoved⟩
  · have hd : ({ t.setObj id b with log := lg } : Adapter ρ).deref id' = t.deref id' :=
      Adapter.deref_setObj_ne t id b id' he
    rw [hd]
    exact ⟨rfl, rfl, rfl⟩

/-- The net effect of the replay's datasource-level move call on a marked
record: after the mark-write and the log append, the reentrant adapter call
only consumes the marker (assigning the cached index from `_findIndex` when
it was never set). -/
theorem Adapter.markClear_step [Inhabited ρ] (t : Adapter ρ) (id : Nat) (ev : Event)
    (hobj : id < t.objs.length)
    (hkid : jsGet t.keyMap ((t.deref id).key) = some id) :
    (∀ j : Int, (t.deref id).index = some j →
      (({ t.setObj id { t.deref id with moved := true } with
          log := t.log ++ [ev] } : Adapter ρ).moveToStart ((t.deref id).key))
        = { t.setObj id { t.deref id with moved := false } with log := t.log ++ [ev] })
    ∧ ((t.deref id).index = none →
      (({ t.setObj id { t.deref id with moved := true } with
          log := t.log ++ [ev] } : Adapter ρ).moveToStart ((t.deref id).key))
        = { t.setObj id { t.deref id with index := some (t.findIndex id), moved := false }
            with log := t.log ++ [ev] })
    ∧ (∀ (pk : String) (c q : Nat),
      (({ t.setObj id { t.deref id with moved := true } with
          log := t.log ++ [ev] } : Adapter ρ).moveAfter ((t.deref id).key) pk c q)
        = { t.setObj id { t.deref id with moved := false } with log := t.log ++ [ev] }) := by
  have hd2 : ({ t.setObj id { t.deref id with moved := true } with
      log := t.log ++ [ev] } : Adapter ρ).deref id = { t.deref id with moved := true } :=
    Adapter.deref_setObj_self t id _ hobj
  refine ⟨?_, ?_, ?_⟩
  · intro j hidx
    rw [Adapter.moveToStart_marked_some
          ({ t.setObj id { t.deref id with moved := true } with log := t.log ++ [ev] })
          ((t.deref id).key) id j hkid (by rw [hd2]) (by rw [hd2]; exact hidx)]
    rw [hd2, Adapter.setObj_log_setObj]
  · intro hidx
    rw [Adapter.moveToStart_marked_none
          ({ t.setObj id { t.deref id with moved := true } with log := t.log ++ [ev] })
          ((t.deref id).key) id hkid (by rw [hd2]) (by rw [hd2]; exact hidx)]
    rw [hd2, Adapter.setObj_log_setObj]
    rfl
  · intro pk c q
    rw [Adapter.moveAfter_marked
          ({ t.setObj id { t.deref id with moved := true } with log := t.log ++ [ev] })
          ((t.deref id).key) pk c q id hkid (by rw [hd2])]
    rw [hd2, Adapter.setObj_log_setObj]

end Motown
namespace Motown

variable {ρ : Type}

/-- The notification that step `i` of the replay loop sends for the record
`id` it finds out of place: `moveToStart` when `i = 0` or the predecessor's
key is falsy, else `moveAfter` relative to the predecessor. -/
def Adapter.sortEvent [Inhabited ρ] (t : Adapter ρ) (i id : Nat) : Event :=
  if i = 0 then Event.movedToStart (t.deref id).key
  else
    match t.items[i - 1]? with
    | none => Event.movedToStart (t.deref id).key
    | some pid =>
      if (t.deref pid).key = "" then Event.movedToStart (t.deref id).key
      else Event.movedAfter (t.deref id).key (t.deref pid).key

/-- The object state a replay step leaves behind for the record it reports:
the marker is always back off; an unset cached index is assigned from
`_findIndex` only on the `moveToStart` paths (`moveAfter` never touches
it). -/
def Adapter.sortStepItem [Inhabited ρ] (t : Adapter ρ) (i id : Nat) : Item ρ :=
  match (t.deref id).index, t.sortEvent i id with
  | none, Event.movedToStart _ =>
    { t.deref id with index := some (t.findIndex id), moved := false }
  | _, _ => { t.deref id with moved := false }

/-- What one replay step does, by cases on the record's cached index: a
cached index equal to the loop position is a complete no-op; any other
cached value (or an unset one) logs the move notification and round-trips
the marker, leaving the sequence untouched (an unset cached index is
additionally assigned from `_findIndex` on the `moveToStart` paths). -/
theorem Adapter.sortStep_spec [Inhabited ρ] (t : Adapter ρ) (i : Nat) (id : Nat)
    (hti : t.items[i]? = some id)
    (hobj : id < t.objs.length)
    (hkid : jsGet t.keyMap ((t.deref id).key) = some id) :
    ((t.deref id).index = some (i : Int) → t.sortStep i = t)
    ∧ (∀ j : Int, (t.deref id).index = some j → (i : Int) ≠ j →
        t.sortStep i = { t.setObj id { t.deref id with moved := false }
                         with log := t.log ++ [t.sortEvent i id] })
    ∧ ((t.deref id).index = none →
        t.sortStep i = { t.setObj id (t.sortStepItem i id)
                         with log := t.log ++ [t.sortEvent i id] }) := by
  have hmc := Adapter.markClear_step t id
  refine ⟨?_, ?_, ?_⟩
  · intro hidx
    unfold Adapter.sortStep
    rw [hti]
    dsimp only
    rw [if_neg (show ¬((match (t.deref id).index with
        | none => true
        | some j' => ((i : Int) != j')) = true) by rw [hidx]; simp)]
  · intro j hidx hne
    unfold Adapter.sortStep
    rw [hti]
    dsimp only
    rw [if_pos (show (match (t.deref id).index with
        | none => true
        | some j' => ((i : Int) != j')) = true by rw [hidx]; simpa using hne)]
    by_cases hi0 : i = 0
    · subst hi0
      have hev : t.sortEvent 0 id = Event.movedToStart (t.deref id).key := by
        unfold Adapter.sortEvent
        rw [if_pos rfl]
      rw [hev]
      exact (hmc (Event.movedToStart (t.deref id).key) hobj hkid).1 j hidx
    · rw [if_neg hi0]
      cases hp1 : t.items[i - 1]? with
      | none =>
        have hev : t.sortEvent i id = Event.movedToStart (t.deref id).key := by
          unfold Adapter.sortEvent
          rw [if_neg hi0, hp1]
        rw [hev]
        exact (hmc (Event.movedToStart (t.deref id).key) hobj hkid).1 j hidx
      | some pid =>
        dsimp only [Option.map_some']
        by_cases hpk : (t.deref pid).key = ""
        · have hev : t.sortEvent i id = Event.movedToStart (t.deref id).key := by
            unfold Adapter.sortEvent
            rw [if_neg hi0, hp1]
            dsimp only
            rw [if_pos hpk]
          rw [hev, if_pos hpk]
          exact (hmc (Event.movedToStart (t.deref id).key) hobj hkid).1 j hidx
        · have hev : t.sortEvent i id
              = Event.movedAfter (t.deref id).key (t.deref pid).key := by
            unfold Adapter.sortEvent
            rw [if_neg hi0, hp1]
            dsimp only
            rw [if_neg hpk]
          rw [hev, if_neg hpk]
          exact (hmc (Event.movedAfter (t.deref id).key (t.deref pid).key) hobj hkid).2.2
            (t.deref pid).key 0 0
  · intro hidx
    unfold Adapter.sortStep
    rw [hti]
    dsimp only
    rw [if_pos (show (match (t.deref id).index with
        | none => true
        | some j' => ((i : Int) != j')) = true by rw [hidx])]
    by_cases hi0 : i = 0
    · subst hi0
      have hev : t.sortEvent 0 id = Event.movedToStart (t.deref id).key := by
        unfold Adapter.sortEvent
        rw [if_pos rfl]
      have hitem : t.sortStepItem 0 id
          = { t.deref id with index := some (t.findIndex id), moved := false } := by
        unfold Adapter.sortStepItem
        rw [hidx, hev]
      rw [hev, hitem]
      exact (hmc (Event.movedToStart (t.deref id).key) hobj hkid).2.1 hidx
    · rw [if_neg hi0]
      cases hp1 : t.items[i - 1]? with
      | none =>
        have hev : t.sortEvent i id = Event.movedToStart (t.deref id).key := by
          unfold Adapter.sortEvent
          rw [if_neg hi0, hp1]
        have hitem : t.sortStepItem i id
            = { t.deref id with index := some (t.findIndex id), moved := false } := by
          unfold Adapter.sortStepItem
          rw [hidx, hev]
        rw [hev, hitem]
        exact (hmc (Event.movedToStart (t.deref id).key) hobj hkid).2.1 hidx
      | some pid =>
        dsimp only [Option.map_some']
        by_cases hpk : (t.deref pid).key = ""
        · have hev : t.sortEvent i id = Event.movedToStart (t.deref id).key := by
            unfold Adapter.sortEvent
            rw [if_neg hi0, hp1]
            dsimp only
            rw [if_pos hpk]
          have hitem : t.sortStepItem i id
              = { t.deref id with index := some (t.findIndex id), moved := false } := by
            unfold Adapter.sortStepItem
            rw [hidx, hev]
          rw [hev, hitem, if_pos hpk]
          exact (hmc (Event.movedToStart (t.deref id).key) hobj hkid).2.1 hidx
        · have hev : t.sortEvent i id
              = Event.movedAfter (t.deref id).key (t.deref pid).key := by
            unfold Adapter.sortEvent
            rw [if_neg hi0, hp1]
            dsimp only
            rw [if_neg hpk]
          have hitem : t.sortStepItem i id = { t.deref id with moved := false } := by
            unfold Adapter.sortStepItem
            rw [hidx, hev]
          rw [hev, hitem, if_neg hpk]
          exact (hmc (Event.movedAfter (t.deref id).key (t.deref pid).key) hobj hkid).2.2
            (t.deref pid).key 0 0

end Motown
namespace Motown

variable {ρ : Type}

theorem Adapter.sortStepItem_fields [Inhabited ρ] (t : Adapter ρ) (i id : Nat) :
    (t.sortStepItem i id).key = (t.deref id).key
    ∧ (t.sortStepItem i id).data = (t.deref id).data
    ∧ (t.sortStepItem i id).moved = false := by
  unfold Adapter.sortStepItem
  split
  · exact ⟨rfl, rfl, rfl⟩
  · exact ⟨rfl, rfl, rfl⟩

/-- Each replay step is a frame step on a reentrant-safe state. -/
theorem Adapter.sortStep_frame [Inhabited ρ] (t : Adapter ρ) (i : Nat) (hS : t.SortSafe) :
    FrameEq t (t.sortStep i) := by
  cases hti : t.items[i]? with
  | none =>
    have h : t.sortStep i = t := by
      unfold Adapter.sortStep
      rw [hti]
    rw [h]
    exact FrameEq.refl t
  | some id =>
    obtain ⟨hnd, hlt, hmap, hmv⟩ := hS
    have hmem : id ∈ t.items := List.getElem?_mem hti
    have hobj : id < t.objs.length := hlt id hmem
    have hkid : jsGet t.keyMap ((t.deref id).key) = some id := hmap id hmem
    have hm : (t.deref id).moved = false := hmv id hmem
    have hspec := Adapter.sortStep_spec t i id hti hobj hkid
    cases hidx : (t.deref id).index with
    | none =>
      rw [hspec.2.2 hidx]
      obtain ⟨f1, f2, f3⟩ := Adapter.sortStepItem_fields t i id
      exact FrameEq.setObj_log t id _ _ hobj f1 f2 (f3.trans hm.symm)
    | some j =>
      by_cases hij : (i : Int) = j
      · rw [hspec.1 (hij ▸ hidx)]
        exact FrameEq.refl t
      · rw [hspec.2.1 j hidx hij]
        exact FrameEq.setObj_log t id _ _ hobj rfl rfl hm.symm

/-- The whole replay is a frame step on a reentrant-safe state. -/
theorem Adapter.sortReplay_frame [Inhabited ρ] (len rem : Nat) :
    ∀ (t : Adapter ρ), t.SortSafe → FrameEq t (t.sortReplay len rem) := by
  induction rem with
  | zero =>
    intro t _
    exact FrameEq.refl t
  | succ rem ih =>
    intro t hS
    have h1 := Adapter.sortStep_frame t (len - (rem + 1)) hS
    have hS1 := Adapter.sortSafe_of_frameEq h1 hS
    unfold Adapter.sortReplay
    exact h1.trans (ih _ hS1)

/-- `insertionSort` only depends on the relation extensionally. -/
theorem insertionSort_congr {α : Type} {r r' : α → α → Prop}
    [DecidableRel r] [DecidableRel r']
    (h : ∀ a b, r a b ↔ r' a b) : ∀ l : List α, l.insertionSort r = l.insertionSort r' := by
  intro l
  induction l with
  | nil => rfl
  | cons x xs ih =>
    rw [List.insertionSort, List.insertionSort, ih]
    generalize (xs.insertionSort r') = m
    induction m with
    | nil => rfl
    | cons y ys ihm =>
      rw [List.orderedInsert, List.orderedInsert]
      by_cases hxy : r x y
      · rw [if_pos hxy, if_pos ((h x y).mp hxy)]
      · rw [if_neg hxy, if_neg (fun hc => hxy ((h x y).mpr hc)), ihm]

/-- `SortSafe` survives the in-place array sort. -/
theorem Adapter.sortSafe_sorted [Inhabited ρ] (s : Adapter ρ) (cmp : ρ → ρ → Int)
    (hS : s.SortSafe) :
    ({ s with items := s.items.insertionSort (s.idLE cmp) } : Adapter ρ).SortSafe := by
  obtain ⟨hnd, hlt, hmap, hmv⟩ := hS
  have hperm := List.perm_insertionSort (s.idLE cmp) s.items
  refine ⟨hperm.nodup_iff.mpr hnd, ?_, ?_, ?_⟩
  · intro id hid
    exact hlt id (hperm.mem_iff.mp hid)
  · intro id hid
    exact hmap id (hperm.mem_iff.mp hid)
  · intro id hid
    exact hmv id (hperm.mem_iff.mp hid)

/-- The cumulative effect of `sort`: the backing sequence ends up
insertion-sorted under the comparator on payloads, while the key map and
every object's key, payload and marker are untouched. -/
theorem Adapter.sort_spec [Inhabited ρ] (s : Adapter ρ) (cmp : ρ → ρ → Int)
    (hS : s.SortSafe) :
    (s.sort cmp).items = s.items.insertionSort (s.idLE cmp)
    ∧ (∀ id : Nat, ((s.sort cmp).deref id).key = (s.deref id).key
        ∧ ((s.sort cmp).deref id).data = (s.deref id).data
        ∧ ((s.sort cmp).deref id).moved = (s.deref id).moved)
    ∧ (s.sort cmp).keyMap = s.keyMap
    ∧ (s.sort cmp).objs.length = s.objs.length
    ∧ (s.sort cmp).SortSafe := by
  have hS1 := Adapter.sortSafe_sorted s cmp hS
  by_cases hed : s.editing
  · have hsort : s.sort cmp
        = ({ s with items := s.items.insertionSort (s.idLE cmp) } : Adapter ρ).sortReplay
            s.items.length s.items.length := by
      unfold Adapter.sort
      simp only [hed, if_true]
    have hF := Adapter.sortReplay_frame s.items.length s.items.length _ hS1
    obtain ⟨hi, hm, hl, hf⟩ := hF
    rw [hsort]
    exact ⟨hi, hf, hm, hl, Adapter.sortSafe_of_frameEq ⟨hi, hm, hl, hf⟩ hS1⟩
  · have hsort : s.sort cmp
        = ((({ s with items := s.items.insertionSort (s.idLE cmp) } : Adapter ρ).beginEdits).sortReplay
            s.items.length s.items.length).endEdits := by
      unfold Adapter.sort
      simp only [hed]
      rfl
    have hS1b : (({ s with items := s.items.insertionSort (s.idLE cmp) } : Adapter ρ).beginEdits).SortSafe := hS1
    have hF := Adapter.sortReplay_frame s.items.length s.items.length _ hS1b
    obtain ⟨hi, hm, hl, hf⟩ := hF
    rw [hsort]
    refine ⟨hi, hf, hm, hl, ?_⟩
    exact Adapter.sortSafe_of_frameEq ⟨hi, hm, hl, hf⟩ hS1b

end Motown
namespace Motown

variable {ρ : Type}

/-- C2: on a reentrant-safe store, `sort(comparator)` leaves the backing
sequence in the order obtained by stably sorting the payloads with the
comparator (the replayed incremental moves are all suppressed by the
`_moved` marker, so however many are replayed the physical order is the
stable sort's); in particular on the store built from
`[{key:"a",v:3},{key:"b",v:1},{key:"c",v:2}]`, `sort((x,y)=>x.v-y.v)`
yields key order `["b","c","a"]` and `getAtIndex(0)` afterwards returns the
payload for `"b"`. -/
theorem C2_sort [Inhabited ρ] (s : Adapter ρ) (cmp : ρ → ρ → Int) (hS : s.SortSafe) :
    ((s.sort cmp).items.map (fun id => ((s.sort cmp).deref id).data)
      = List.insertionSort (cmpLE cmp) (s.items.map (fun id => (s.deref id).data)))
    ∧ (s.sort cmp).items = s.items.insertionSort (s.idLE cmp)
    ∧ ((stABC.sort cmpV).items.map (fun id => ((stABC.sort cmpV).deref id).key)
        = ["b", "c", "a"])
    ∧ (stABC.sort cmpV).getAt 0 = some ⟨"b", 1⟩ := by
  obtain ⟨hitems, hfields, hmap, hlen, hsafe⟩ := Adapter.sort_spec s cmp hS
  refine ⟨?_, hitems, by rfl, by rfl⟩
  rw [hitems,
      List.map_congr_left (fun id _ => ((hfields id).2.1 :
        ((s.sort cmp).deref id).data = (s.deref id).data))]
  exact List.map_insertionSort (s.idLE cmp) (cmpLE cmp) _ _ (fun a _ b _ => Iff.rfl)

/-- Witness for C2 on the spec's concrete store. -/
theorem C2_sort_witness :
    (stABC.sort cmpV).items.map (fun id => ((stABC.sort cmpV).deref id).key)
      = ["b", "c", "a"] :=
  (C2_sort stABC cmpV (by decide)).2.2.1

end Motown
namespace Motown

variable {ρ : Type}

/-- Witness for C7: `fetchByKey("a")` on the three-record store succeeds
with the full sequence and the record's cached index field. -/
theorem C7_fetchByKey_witness :
    stABC.itemsFromKey "a" 0 0 =
      Except.ok ⟨stABC.items, (stABC.deref 0).index, (stABC.deref 0).index,
                 stABC.getCount⟩ :=
  (C7_fetchByKey stABC "a" 0 0).2.2.1 0 rfl

/-- A step past the end of the sequence does nothing. -/
theorem Adapter.sortStep_oob [Inhabited ρ] (t : Adapter ρ) (i : Nat)
    (h : t.items[i]? = none) : t.sortStep i = t := by
  unfold Adapter.sortStep
  rw [h]

/-- When every record's cached index equals its position, the whole replay is
the identity (no notification is emitted, nothing changes). -/
theorem Adapter.sortReplay_clean [Inhabited ρ] (len rem : Nat) :
    ∀ (t : Adapter ρ), t.SortSafe →
      (∀ (i id : Nat), t.items[i]? = some id → (t.deref id).index = some (i : Int)) →
      t.sortReplay len rem = t := by
  induction rem with
  | zero =>
    intro t _ _
    rfl
  | succ rem ih =>
    intro t hS hclean
    have hstep : t.sortStep (len - (rem + 1)) = t := by
      cases hti : t.items[len - (rem + 1)]? with
      | none => exact Adapter.sortStep_oob t _ hti
      | some id =>
        have hmem : id ∈ t.items := List.getElem?_mem hti
        exact (Adapter.sortStep_spec t _ id hti (hS.2.1 id hmem)
          (hS.2.2.1 id hmem)).1 (hclean _ id hti)
    show (t.sortStep (len - (rem + 1))).sortReplay len rem = t
    rw [hstep]
    exact ih t hS hclean

/-- The replay only ever appends to the log. -/
theorem Adapter.sortReplay_log_mono [Inhabited ρ] (len rem : Nat) :
    ∀ (t : Adapter ρ), t.SortSafe →
      ∃ evs, (t.sortReplay len rem).log = t.log ++ evs := by
  induction rem with
  | zero =>
    intro t _
    exact ⟨[], by show t.log = t.log ++ []; simp⟩
  | succ rem ih =>
    intro t hS
    have hS1 := Adapter.sortSafe_of_frameEq (Adapter.sortStep_frame t (len - (rem + 1)) hS) hS
    obtain ⟨evs, hevs⟩ := ih (t.sortStep (len - (rem + 1))) hS1
    have hstep : ∃ evs0, (t.sortStep (len - (rem + 1))).log = t.log ++ evs0 := by
      cases hti : t.items[len - (rem + 1)]? with
      | none =>
        rw [Adapter.sortStep_oob t _ hti]
        exact ⟨[], by simp⟩
      | some id =>
        have hmem : id ∈ t.items := List.getElem?_mem hti
        have hspec := Adapter.sortStep_spec t _ id hti (hS.2.1 id hmem) (hS.2.2.1 id hmem)
        cases hidx : (t.deref id).index with
        | none =>
          rw [hspec.2.2 hidx]
          exact ⟨[t.sortEvent _ id], rfl⟩
        | some j =>
          by_cases hij : ((len - (rem + 1) : Nat) : Int) = j
          · rw [hspec.1 (hij ▸ hidx)]
            exact ⟨[], by simp⟩
          · rw [hspec.2.1 j hidx hij]
            exact ⟨[t.sortEvent _ id], rfl⟩
    obtain ⟨evs0, hevs0⟩ := hstep
    refine ⟨evs0 ++ evs, ?_⟩
    show ((t.sortStep (len - (rem + 1))).sortReplay len rem).log = t.log ++ (evs0 ++ evs)
    rw [hevs, hevs0, List.append_assoc]

/-- A record whose cached index does not match its position makes the replay
emit at least one notification: the log strictly grows. -/
theorem Adapter.sortReplay_dirty [Inhabited ρ] (len rem : Nat) :
    ∀ (t : Adapter ρ), t.SortSafe → t.items.length = len →
      (∃ i id, len - rem ≤ i ∧ t.items[i]? = some id
        ∧ (t.deref id).index ≠ some (i : Int)) →
      (t.sortReplay len rem).log ≠ t.log := by
  induction rem with
  | zero =>
    intro t _ hlen ⟨i, id, hge, hti, _⟩
    have : i < t.items.length := by
      by_contra hc
      rw [List.getElem?_eq_none (by omega)] at hti
      exact Option.noConfusion hti
    omega
  | succ rem ih =>
    intro t hS hlen ⟨i, id, hge, hti, hmis⟩
    have hilen : i < len := by
      have : i < t.items.length := by
        by_contra hc
        rw [List.getElem?_eq_none (by omega)] at hti
        exact Option.noConfusion hti
      omega
    by_cases hstep0 : t.sortStep (len - (rem + 1)) = t
    · -- the current position stepped cleanly; the mismatch is further right
      show ((t.sortStep (len - (rem + 1))).sortReplay len rem).log ≠ t.log
      rw [hstep0]
      refine ih t hS hlen ⟨i, id, ?_, hti, hmis⟩
      rcases Nat.lt_or_ge i (len - rem) with hlt | hge'
      · exfalso
        have hieq : i = len - (rem + 1) := by omega
        subst hieq
        cases hti' : t.items[len - (rem + 1)]? with
        | none => rw [hti'] at hti; exact Option.noConfusion hti
        | some id' =>
          rw [hti'] at hti
          have hid : id' = id := by simpa using hti
          subst hid
          have hmem : id' ∈ t.items := List.getElem?_mem hti'
          have hspec := Adapter.sortStep_spec t _ id' hti' (hS.2.1 id' hmem)
            (hS.2.2.1 id' hmem)
          cases hidx : (t.deref id').index with
          | none =>
            rw [hspec.2.2 hidx] at hstep0
            have := congrArg Adapter.log hstep0
            simp [Adapter.setObj] at this
          | some j =>
            by_cases hij : ((len - (rem + 1) : Nat) : Int) = j
            · exact hmis (hij ▸ hidx)
            · rw [hspec.2.1 j hidx hij] at hstep0
              have := congrArg Adapter.log hstep0
              simp [Adapter.setObj] at this
      · exact hge'
    · -- the current step emitted: the log grows and never shrinks again
      have hS1 := Adapter.sortSafe_of_frameEq (Adapter.sortStep_frame t (len - (rem + 1)) hS) hS
      obtain ⟨evs, hevs⟩ := Adapter.sortReplay_log_mono len rem _ hS1
      have hgrew : ∃ ev, (t.sortStep (len - (rem + 1))).log = t.log ++ [ev] := by
        cases hti' : t.items[len - (rem + 1)]? with
        | none => exact absurd (Adapter.sortStep_oob t _ hti') hstep0
        | some id' =>
          have hmem : id' ∈ t.items := List.getElem?_mem hti'
          have hspec := Adapter.sortStep_spec t _ id' hti' (hS.2.1 id' hmem)
            (hS.2.2.1 id' hmem)
          cases hidx : (t.deref id').index with
          | none =>
            rw [hspec.2.2 hidx]
            exact ⟨t.sortEvent _ id', rfl⟩
          | some j =>
            by_cases hij : ((len - (rem + 1) : Nat) : Int) = j
            · exact absurd (hspec.1 (hij ▸ hidx)) hstep0
            · rw [hspec.2.1 j hidx hij]
              exact ⟨t.sortEvent _ id', rfl⟩
      obtain ⟨ev, hev⟩ := hgrew
      show ((t.sortStep (len - (rem + 1))).sortReplay len rem).log ≠ t.log
      rw [hevs, hev]
      intro hcontra
      have := congrArg List.length hcontra
      simp at this

end Motown
namespace Motown

variable {ρ : Type}

/-- The log of `sort` is the log its replay leaves, when a batch was
already open. -/
theorem Adapter.sort_log_editing [Inhabited ρ] (u : Adapter ρ) (cmp : ρ → ρ → Int)
    (hu : u.editing = true) :
    (u.sort cmp).log
      = (({ u with items := u.items.insertionSort (u.idLE cmp) } : Adapter ρ).sortReplay
          u.items.length u.items.length).log := by
  unfold Adapter.sort
  simp only [hu, if_true]

/-- The log of `sort` is the log its replay leaves, when it opens its own
batch (`beginEdits`/`endEdits` do not log). -/
theorem Adapter.sort_log_notEditing [Inhabited ρ] (u : Adapter ρ) (cmp : ρ → ρ → Int)
    (hu : u.editing = false) :
    (u.sort cmp).log
      = ((({ u with items := u.items.insertionSort (u.idLE cmp) } : Adapter ρ).beginEdits).sortReplay
          u.items.length u.items.length).log := by
  unfold Adapter.sort
  simp only [hu, Bool.false_eq_true, if_false]
  rfl

/-- C4 (amended): for a comparator inducing a total preorder on payloads,
sorting twice with the same comparator leaves the sequence unchanged, but
the second sort emits zero move notifications (its log is unchanged) if and
only if every record's cached index field equals its current position after
the first sort — which the first sort's replay does not itself establish,
so in general the second sort re-reports records with stale or unset cached
indices. -/
theorem C4_sort_idempotent [Inhabited ρ] (s : Adapter ρ) (cmp : ρ → ρ → Int)
    (hS : s.SortSafe)
    (htot : ∀ a b : ρ, cmp a b ≤ 0 ∨ cmp b a ≤ 0)
    (htr : ∀ a b c : ρ, cmp a b ≤ 0 → cmp b c ≤ 0 → cmp a c ≤ 0) :
    ((s.sort cmp).sort cmp).items = (s.sort cmp).items
    ∧ (((s.sort cmp).sort cmp).log = (s.sort cmp).log ↔
        ∀ (i id : Nat), (s.sort cmp).items[i]? = some id →
          ((s.sort cmp).deref id).index = some (i : Int)) := by
  obtain ⟨hitems1, hfields1, hmap1, hlen1, hsafe1⟩ := Adapter.sort_spec s cmp hS
  obtain ⟨hitems2, hfields2, hmap2, hlen2, hsafe2⟩ :=
    Adapter.sort_spec (s.sort cmp) cmp hsafe1
  haveI : IsTotal Nat (s.idLE cmp) := ⟨fun a b => htot _ _⟩
  haveI : IsTrans Nat (s.idLE cmp) := ⟨fun a b c hab hbc => htr _ _ _ hab hbc⟩
  have hrel : ∀ a b : Nat, (s.sort cmp).idLE cmp a b ↔ s.idLE cmp a b := by
    intro a b
    unfold Adapter.idLE cmpLE
    rw [(hfields1 a).2.1, (hfields1 b).2.1]
  have hsortedeq :
      ((s.sort cmp).items).insertionSort ((s.sort cmp).idLE cmp) = (s.sort cmp).items := by
    rw [insertionSort_congr hrel, hitems1]
    exact (List.sorted_insertionSort (s.idLE cmp) s.items).insertionSort_eq
  have hitems2' : ((s.sort cmp).sort cmp).items = (s.sort cmp).items :=
    hitems2.trans hsortedeq
  refine ⟨hitems2', ?_⟩
  have hsafe0 := Adapter.sortSafe_sorted (s.sort cmp) cmp hsafe1
  by_cases hed : (s.sort cmp).editing
  · have hlog2 := Adapter.sort_log_editing (s.sort cmp) cmp hed
    constructor
    · intro hlogeq
      by_contra hdirty
      push_neg at hdirty
      obtain ⟨i, id, hti, hmis⟩ := hdirty
      refine Adapter.sortReplay_dirty (s.sort cmp).items.length (s.sort cmp).items.length
        _ hsafe0 (by rw [hsortedeq]) ⟨i, id, by omega, by rw [hsortedeq]; exact hti, hmis⟩ ?_
      rw [← hlog2]
      exact hlogeq
    · intro hclean
      rw [hlog2, Adapter.sortReplay_clean _ _ _ hsafe0 ?_]
      intro i id hti
      dsimp only at hti
      rw [hsortedeq] at hti
      exact hclean i id hti
  · have hlog2 := Adapter.sort_log_notEditing (s.sort cmp) cmp
      (by rw [Bool.eq_false_iff]; exact hed)
    have hsafe0b : (({ s.sort cmp with
        items := ((s.sort cmp).items).insertionSort ((s.sort cmp).idLE cmp) }
        : Adapter ρ).beginEdits).SortSafe := hsafe0
    constructor
    · intro hlogeq
      by_contra hdirty
      push_neg at hdirty
      obtain ⟨i, id, hti, hmis⟩ := hdirty
      refine Adapter.sortReplay_dirty (s.sort cmp).items.length (s.sort cmp).items.length
        _ hsafe0b (by rw [show (({ s.sort cmp with
              items := ((s.sort cmp).items).insertionSort ((s.sort cmp).idLE cmp) }
            : Adapter ρ).beginEdits).items
            = ((s.sort cmp).items).insertionSort ((s.sort cmp).idLE cmp) from rfl, hsortedeq])
        ⟨i, id, by omega, by
          rw [show (({ s.sort cmp with
              items := ((s.sort cmp).items).insertionSort ((s.sort cmp).idLE cmp) }
            : Adapter ρ).beginEdits).items
            = ((s.sort cmp).items).insertionSort ((s.sort cmp).idLE cmp) from rfl, hsortedeq]
          exact hti, hmis⟩ ?_
      rw [← hlog2]
      exact hlogeq
    · intro hclean
      rw [hlog2, Adapter.sortReplay_clean _ _ _ hsafe0b ?_]
      · rfl
      · intro i id hti
        simp only [Adapter.beginEdits] at hti
        rw [hsortedeq] at hti
        exact hclean i id hti

/-- Witness for C4 (amended): on the two-record store `[a:3, b:1]` the
second sort leaves the sequence unchanged. -/
theorem C4_sort_idempotent_witness :
    ((stBA.sort cmpV).sort cmpV).items = (stBA.sort cmpV).items :=
  (C4_sort_idempotent stBA cmpV (by decide)
    (fun a b => by unfold cmpV; omega)
    (fun a b c h1 h2 => by unfold cmpV at *; omega)).1

end Motown
namespace Motown

variable {ρ : Type}

/-- The mutating operations of the adapter, as invoked by the datasource
(`moveAfter` receives its two index arguments from the caller). -/
inductive Op (ρ : Type) where
  | insertAtEnd (key : Option String) (data : ρ)
  | remove (key : String)
  | moveToStart (key : String)
  | moveToEnd (key : String)
  | moveAfter (key prevKey : String) (currIdx prevItemIdx : Nat)

def Adapter.applyOp [Inhabited ρ] (s : Adapter ρ) : Op ρ → Adapter ρ
  | .insertAtEnd key data => s.insertAtEnd key data
  | .remove key => s.remove key
  | .moveToStart key => s.moveToStart key
  | .moveToEnd key => s.moveToEnd key
  | .moveAfter key prevKey currIdx prevItemIdx => s.moveAfter key prevKey currIdx prevItemIdx

def Adapter.applyOps [Inhabited ρ] (s : Adapter ρ) (ops : List (Op ρ)) : Adapter ρ :=
  ops.foldl Adapter.applyOp s

/-- The record's cached index is unset or equals its true position. -/
def Adapter.idxAccurate [Inhabited ρ] (s : Adapter ρ) (id : Nat) : Bool :=
  match (s.deref id).index with
  | none => true
  | some j => decide (0 ≤ j) && (s.items[j.toNat]? == some id)

/-- The per-operation well-behavedness condition of the amended claim C1: a
fresh truthy key for `insertAtEnd`; an unset-or-accurate cached index for
`remove`, `moveToStart` and `moveToEnd` of a present, unmarked record; and
the true current index for `moveAfter` of a present, unmarked record.
Operations on absent keys are always allowed (they throw or no-op before
mutating). -/
def Adapter.opOk [Inhabited ρ] (s : Adapter ρ) : Op ρ → Bool
  | .insertAtEnd key data =>
    let k := jsOrKey key (s.keyProp data)
    (k != "") && (jsGet s.keyMap k).isNone
  | .remove key =>
    match jsGet s.keyMap key with
    | none => true
    | some id => s.idxAccurate id
  | .moveToStart key =>
    match jsGet s.keyMap key with
    | none => true
    | some id => (s.deref id).moved || s.idxAccurate id
  | .moveToEnd key =>
    match jsGet s.keyMap key with
    | none => true
    | some id => (s.deref id).moved || s.idxAccurate id
  | .moveAfter key _ currIdx _ =>
    match jsGet s.keyMap key with
    | none => true
    | some id => (s.deref id).moved || (s.items[currIdx]? == some id)

/-- Every operation of the trace satisfies its precondition in the state it
runs in. -/
def Adapter.traceOk [Inhabited ρ] (s : Adapter ρ) : List (Op ρ) → Bool
  | [] => true
  | op :: rest => s.opOk op && (s.applyOp op).traceOk rest

/-- Looking below an insertion point leaves `getElem?` unchanged. -/
theorem getElem?_insertIdx_of_lt {α : Type} {l : List α} {n c : Nat} (a : α) (h : c < n) :
    (l.insertIdx n a)[c]? = l[c]? := by
  induction l generalizing n c with
  | nil =>
    cases n with
    | zero => omega
    | succ n => rfl
  | cons x xs ih =>
    cases n with
    | zero => omega
    | succ n =>
      rw [List.insertIdx_succ_cons]
      cases c with
      | zero => simp
      | succ c => simpa using ih (by omega)

/-- Looking above an insertion point shifts `getElem?` by one. -/
theorem getElem?_insertIdx_succ_of_le {α : Type} {l : List α} {n c : Nat} (a : α) (h : n ≤ c) :
    (l.insertIdx n a)[c + 1]? = l[c]? := by
  induction l generalizing n c with
  | nil =>
    cases n with
    | zero => rfl
    | succ n => simp [List.insertIdx_succ_nil]
  | cons x xs ih =>
    cases n with
    | zero => simp [List.insertIdx_zero]
    | succ n =>
      rw [List.insertIdx_succ_cons]
      cases c with
      | zero => omega
      | succ c => simpa using ih (by omega)

/-- `jsInsertIdx` always inserts the element, somewhere. -/
theorem jsInsertIdx_perm {α : Type} (n : Nat) (a : α) (l : List α) :
    (jsInsertIdx n a l).Perm (a :: l) := by
  unfold jsInsertIdx
  split
  · exact List.perm_append_singleton a l
  · exact List.perm_insertIdx a l (by omega)

/-- The net splice pair of `moveAfter`, called with the record's true
current index and any insertion target, permutes the sequence. -/
theorem perm_moveAfter_splice {α : Type} {l : List α} {c n : Nat} {a : α} (hc : l[c]? = some a) :
    ((jsInsertIdx n a l).eraseIdx (c + (if n > c then 0 else 1))).Perm l := by
  have hclen : c < l.length := by
    by_contra hcl
    rw [List.getElem?_eq_none (by omega)] at hc
    exact Option.noConfusion hc
  by_cases hnc : n > c
  · rw [if_pos hnc]
    have hatc : (jsInsertIdx n a l)[c]? = some a := by
      unfold jsInsertIdx
      split
      · rw [List.getElem?_append_left hclen]
        exact hc
      · rw [getElem?_insertIdx_of_lt a hnc]
        exact hc
    have h1 := perm_cons_eraseIdx hatc
    have h2 := jsInsertIdx_perm n a l
    exact (h1.trans h2).cons_inv
  · rw [if_neg hnc]
    have hn : n ≤ c := by omega
    have hle : ¬ l.length < n := by omega
    have hatc : (jsInsertIdx n a l)[c + 1]? = some a := by
      unfold jsInsertIdx
      rw [if_neg hle, getElem?_insertIdx_succ_of_le a hn]
      exact hc
    have h1 := perm_cons_eraseIdx hatc
    have h2 := jsInsertIdx_perm n a l
    exact (h1.trans h2).cons_inv

end Motown
namespace Motown

variable {ρ : Type}

/-- Building a map by repeated `jsSet` with pairwise-fresh keys appends the
entries in order. -/
theorem foldl_jsSet_ext {β : Type} (fk : β → String) (fv : β → Nat) :
    ∀ (ps : List β) (acc : List (String × Nat)),
    (∀ p ∈ ps, ∀ q ∈ acc, q.1 ≠ fk p) → (ps.map fk).Nodup →
    ps.foldl (fun m p => jsSet m (fk p) (fv p)) acc
      = acc ++ ps.map (fun p => (fk p, fv p)) := by
  intro ps
  induction ps with
  | nil =>
    intro acc _ _
    simp
  | cons p ps ih =>
    intro acc hdisj hnd
    rw [List.foldl_cons,
        jsSet_of_not_mem acc (fk p) (fv p) (fun q hq => hdisj p (by simp) q hq),
        ih (acc ++ [(fk p, fv p)]) ?_ (by simpa using (List.nodup_cons.mp (by simpa using hnd)).2)]
    · simp
    · intro x hx q hq
      rcases List.mem_append.mp hq with hq | hq
      · exact hdisj x (List.mem_cons_of_mem p hx) q hq
      · have hq' : q = (fk p, fv p) := by simpa using hq
        subst hq'
        have hnotin : fk p ∉ ps.map fk := (List.nodup_cons.mp (by simpa using hnd)).1
        intro hcontra
        apply hnotin
        rw [show fk p = fk x from hcontra]
        exact List.mem_map_of_mem fk hx

theorem mkAdapter_deref [Inhabited ρ] (keyProp : ρ → String) (raws : List ρ)
    {i : Nat} (h : i < raws.length) :
    (mkAdapter keyProp (.arr raws)).deref i
      = { key := keyProp raws[i], data := raws[i] } := by
  show ((raws.map (fun r => ({ key := keyProp r, data := r } : Item ρ))).getD i default) = _
  rw [List.getD_eq_getElem _ _ (by simpa using h), List.getElem_map]

/-- The freshly built adapter satisfies the full invariant when the raw
records carry pairwise-distinct truthy keys; its key map is exactly the
sequence association. -/
theorem wf_mkAdapter [Inhabited ρ] (keyProp : ρ → String) (raws : List ρ)
    (hnd : (raws.map keyProp).Nodup)
    (htr : ∀ r ∈ raws, keyProp r ≠ "") :
    (mkAdapter keyProp (.arr raws)).Wf := by
  have hlen : (mkAdapter keyProp (.arr raws)).objs.length = raws.length := by
    show (raws.map _).length = _
    simp
  have hitems : (mkAdapter keyProp (.arr raws)).items
      = List.range (mkAdapter keyProp (.arr raws)).objs.length := rfl
  have hkeys : (mkAdapter keyProp (.arr raws)).seqKeys = raws.map keyProp := by
    apply List.ext_getElem?
    intro i
    unfold Adapter.seqKeys
    rw [List.getElem?_map, List.getElem?_map]
    rw [show (mkAdapter keyProp (.arr raws)).items
        = List.range (mkAdapter keyProp (.arr raws)).objs.length from rfl]
    by_cases hi : i < raws.length
    · rw [List.getElem?_range (by rw [hlen]; exact hi), List.getElem?_eq_getElem hi]
      simp only [Option.map_some']
      rw [mkAdapter_deref keyProp raws hi]
    · rw [List.getElem?_eq_none (by rw [List.length_range, hlen]; omega),
          List.getElem?_eq_none (by omega)]
      rfl
  have hpairs : (mkAdapter keyProp (.arr raws)).keyMap
      = (mkAdapter keyProp (.arr raws)).seqPairs := by
    have henumkeys : ((raws.map (fun r => ({ key := keyProp r, data := r } : Item ρ))).enum.map
        (fun p => p.2.key)) = raws.map keyProp := by
      apply List.ext_getElem
      · simp
      · intro i h1 h2
        simp [List.getElem_enum]
    have hfold := foldl_jsSet_ext (fun p => p.2.key) Prod.fst
      ((raws.map (fun r => ({ key := keyProp r, data := r } : Item ρ))).enum) []
      (by intro p _ q hq; simp at hq)
      (by rw [henumkeys]; exact hnd)
    show ((raws.map (fun r => ({ key := keyProp r, data := r } : Item ρ))).enum.foldl
        (fun m p => jsSet m p.2.key p.1) []) = _
    rw [hfold, List.nil_append]
    apply List.ext_getElem?
    intro i
    unfold Adapter.seqPairs
    rw [show (mkAdapter keyProp (.arr raws)).items
        = List.range (mkAdapter keyProp (.arr raws)).objs.length from rfl]
    simp only [List.getElem?_map, List.getElem?_enum]
    by_cases hi : i < raws.length
    · rw [List.getElem?_range (by rw [hlen]; exact hi),
          List.getElem?_eq_getElem hi]
      simp only [Option.map_some']
      rw [mkAdapter_deref keyProp raws hi]
    · rw [(List.getElem?_eq_none (show (List.range
            (mkAdapter keyProp (.arr raws)).objs.length).length ≤ i by
              rw [List.length_range, hlen]; omega) :
            (List.range (mkAdapter keyProp (.arr raws)).objs.length)[i]? = none),
          (List.getElem?_eq_none (show raws.length ≤ i by omega) : raws[i]? = none)]
      rfl
  refine ⟨?_, ?_, ?_, ?_, ?_⟩
  · rw [hitems]
    exact List.nodup_range _
  · intro id hid
    rw [hitems] at hid
    exact List.mem_range.mp hid
  · rw [hkeys]
    exact hnd
  · intro id hid
    rw [hitems] at hid
    have hi : id < raws.length := by rw [← hlen]; exact List.mem_range.mp hid
    rw [mkAdapter_deref keyProp raws hi]
    exact htr _ (List.getElem_mem hi)
  · unfold Adapter.bijection
    rw [hpairs]

end Motown
namespace Motown

variable {ρ : Type}

/-- `insertAtEnd` with a fresh truthy key preserves the invariant. -/
theorem Adapter.wf_insertAtEnd [Inhabited ρ] {s : Adapter ρ} (h : s.Wf)
    {key : Option String} {data : ρ}
    (hok : s.opOk (.insertAtEnd key data) = true) :
    (s.insertAtEnd key data).Wf := by
  obtain ⟨hnd, hlt, hknd, htr, hperm⟩ := h
  have hok' : ((jsOrKey key (s.keyProp data) != "")
      && (jsGet s.keyMap (jsOrKey key (s.keyProp data))).isNone) = true := hok
  rw [Bool.and_eq_true] at hok'
  have hkne : jsOrKey key (s.keyProp data) ≠ "" := by simpa using hok'.1
  have hfresh : jsGet s.keyMap (jsOrKey key (s.keyProp data)) = none := by
    have := hok'.2
    rwa [Option.isNone_iff_eq_none] at this
  have hfresh' : ∀ p ∈ s.keyMap, p.1 ≠ jsOrKey key (s.keyProp data) :=
    jsGet_eq_none_iff.mp hfresh
  have hset : jsSet s.keyMap (jsOrKey key (s.keyProp data)) s.objs.length
      = s.keyMap ++ [(jsOrKey key (s.keyProp data), s.objs.length)] :=
    jsSet_of_not_mem _ _ _ hfresh'
  have hderef_old : ∀ id, id < s.objs.length →
      (s.insertAtEnd key data).deref id = s.deref id := by
    intro id hid
    show (s.objs ++ [_]).getD id default = s.objs.getD id default
    rw [List.getD_eq_getElem?_getD, List.getD_eq_getElem?_getD,
        List.getElem?_append_left hid]
  have hderef_new : (s.insertAtEnd key data).deref s.objs.length
      = ({ key := jsOrKey key (s.keyProp data), data := data } : Item ρ) := by
    show (s.objs ++ [({ key := jsOrKey key (s.keyProp data), data := data } : Item ρ)]).getD
        s.objs.length default = _
    rw [List.getD_eq_getElem?_getD, List.getElem?_concat_length]
    rfl
  have hnotin : s.objs.length ∉ s.items := fun hmem => absurd (hlt _ hmem) (by omega)
  have hkeys' : (s.insertAtEnd key data).seqKeys
      = s.seqKeys ++ [jsOrKey key (s.keyProp data)] := by
    unfold Adapter.seqKeys
    show (s.items ++ [s.objs.length]).map _ = _
    rw [List.map_append]
    congr 1
    · exact List.map_congr_left (fun id hid => by rw [hderef_old id (hlt id hid)])
    · simp [hderef_new]
  refine ⟨?_, ?_, ?_, ?_, ?_⟩
  · show (s.items ++ [s.objs.length]).Nodup
    rw [List.nodup_append]
    refine ⟨hnd, List.nodup_singleton _, ?_⟩
    intro a ha hb
    rw [List.mem_singleton] at hb
    subst hb
    exact hnotin ha
  · intro id hid
    show id < (s.objs ++ [_]).length
    rw [List.length_append]
    rcases List.mem_append.mp hid with hid | hid
    · have := hlt id hid
      simp only [List.length_singleton]
      omega
    · rw [List.mem_singleton] at hid
      simp only [List.length_singleton]
      omega
  · rw [hkeys', List.nodup_append]
    refine ⟨hknd, List.nodup_singleton _, ?_⟩
    intro a ha hb
    rw [List.mem_singleton] at hb
    subst hb
    obtain ⟨id, hid, hkeq⟩ := List.mem_map.mp ha
    have hsome := (Adapter.wf_jsGet ⟨hnd, hlt, hknd, htr, hperm⟩ _ id).mpr ⟨hid, hkeq⟩
    rw [hfresh] at hsome
    exact Option.noConfusion hsome
  · intro id hid
    rcases List.mem_append.mp hid with hid | hid
    · rw [hderef_old id (hlt id hid)]
      exact htr id hid
    · rw [List.mem_singleton] at hid
      subst hid
      rw [hderef_new]
      exact hkne
  · unfold Adapter.bijection Adapter.seqPairs at *
    show jsSet s.keyMap (jsOrKey key (s.keyProp data)) s.objs.length |>.Perm
      ((s.items ++ [s.objs.length]).map _)
    rw [hset, List.map_append]
    refine List.Perm.append ?_ ?_
    · rw [List.map_congr_left (fun id hid => by rw [hderef_old id (hlt id hid)])]
      exact hperm
    · simp [hderef_new]

/-- Erasing a record at its true position and deleting its key map entry
preserves the invariant (the core of `remove`). -/
theorem Adapter.wf_erase_core [Inhabited ρ] {s : Adapter ρ} (h : s.Wf)
    {id p : Nat} (hp : s.items[p]? = some id) :
    (Adapter.mk s.keyProp s.objs (s.items.eraseIdx p)
      (jsDelete s.keyMap ((s.deref id).key)) s.editing s.log).Wf := by
  obtain ⟨hnd, hlt, hknd, htr, hperm⟩ := h
  have hpl : p < s.items.length := by
    by_contra hc
    rw [List.getElem?_eq_none (by omega)] at hp
    exact Option.noConfusion hp
  have hgd : s.items[p] = id := by
    have := List.getElem?_eq_getElem hpl
    rw [hp] at this
    exact (Option.some.injEq _ _).mp this.symm
  have hdecomp : s.items = s.items.take p ++ id :: s.items.drop (p + 1) := by
    conv_lhs => rw [← List.take_append_drop p s.items]
    congr 1
    rw [List.drop_eq_getElem_cons hpl, hgd]
  have htakelen : (s.items.take p).length = p := by
    rw [List.length_take]
    omega
  have herase : s.items.eraseIdx p = s.items.take p ++ s.items.drop (p + 1) := by
    rw [show s.items.eraseIdx p = (s.items.take p ++ id :: s.items.drop (p + 1)).eraseIdx
        ((s.items.take p).length) from by rw [← hdecomp, htakelen]]
    exact eraseIdx_length_append _ _ _
  have hsub : List.Sublist (s.items.eraseIdx p) s.items := List.eraseIdx_sublist _ _
  have hkeyne : ∀ id' ∈ s.items, id' ≠ id → (s.deref id').key ≠ (s.deref id).key := by
    intro id' hid' hne hkeq
    exact hne (List.inj_on_of_nodup_map hknd hid'
      (hdecomp ▸ List.mem_append_right _ (List.mem_cons_self _ _)) hkeq)
  have hidmem : id ∉ s.items.take p ++ s.items.drop (p + 1) := by
    have hnd' : (s.items.take p ++ id :: s.items.drop (p + 1)).Nodup := hdecomp ▸ hnd
    have := List.nodup_middle.mp hnd'
    exact (List.nodup_cons.mp this).1
  refine ⟨hsub.nodup hnd, ?_, ?_, ?_, ?_⟩
  · intro id' hid'
    exact hlt id' (hsub.subset hid')
  · unfold Adapter.seqKeys
    show ((s.items.eraseIdx p).map _).Nodup
    rw [map_eraseIdx]
    exact (List.eraseIdx_sublist _ _).nodup hknd
  · intro id' hid'
    exact htr id' (hsub.subset hid')
  · have hkept : ∀ (l : List Nat), (∀ x ∈ l, x ∈ s.items) → (∀ x ∈ l, x ≠ id) →
        List.filter (fun q => q.1 != (s.deref id).key)
          (l.map (fun id' => ((s.deref id').key, id'))) =
          l.map (fun id' => ((s.deref id').key, id')) := by
      intro l hmem hne
      rw [List.filter_eq_self]
      intro q hq
      obtain ⟨x, hx, hxq⟩ := List.mem_map.mp hq
      subst hxq
      simpa using hkeyne x (hmem x hx) (hne x hx)
    have hfeq : List.filter (fun q => q.1 != (s.deref id).key) (Adapter.seqPairs s)
        = (s.items.eraseIdx p).map (fun id' => ((s.deref id').key, id')) := by
      unfold Adapter.seqPairs
      conv_lhs => rw [hdecomp]
      rw [List.map_append, List.map_cons, List.filter_append, List.filter_cons]
      rw [herase, List.map_append]
      rw [hkept (s.items.take p)
          (fun x hx => hdecomp ▸ List.mem_append_left _ hx)
          (fun x hx hxe => hidmem (List.mem_append_left _ (hxe ▸ hx)))]
      rw [hkept (s.items.drop (p + 1))
          (fun x hx => hdecomp ▸ List.mem_append_right _ (List.mem_cons_of_mem _ hx))
          (fun x hx hxe => hidmem (List.mem_append_right _ (hxe ▸ hx)))]
      simp
    show (List.filter (fun q => q.1 != (s.deref id).key) s.keyMap).Perm
        ((s.items.eraseIdx p).map (fun id' => ((s.deref id').key, id')))
    rw [← hfeq]
    exact hperm.filter _

end Motown
namespace Motown

variable {ρ : Type}

/-- `moveToEnd` on a record whose `_moved` marker is set and whose cached
index was never assigned: the cached index is assigned from `_findIndex` and
the marker is consumed; the sequence is untouched. -/
theorem Adapter.moveToEnd_marked_none [Inhabited ρ] (t : Adapter ρ) (k : String) (id : Nat)
    (hk : jsGet t.keyMap k = some id)
    (hmv : (t.deref id).moved = true)
    (hidx : (t.deref id).index = none) :
    t.moveToEnd k =
      t.setObj id { t.deref id with index := some (t.findIndex id), moved := false } := by
  unfold Adapter.moveToEnd
  rw [hk]
  dsimp only
  rw [hidx]
  dsimp only
  rw [hmv, if_pos rfl, Adapter.setObj_setObj]

/-- `moveToEnd` on a record whose `_moved` marker is set and whose cached
index is set: only the marker is consumed; the sequence is untouched. -/
theorem Adapter.moveToEnd_marked_some [Inhabited ρ] (t : Adapter ρ) (k : String) (id : Nat)
    (j : Int)
    (hk : jsGet t.keyMap k = some id)
    (hmv : (t.deref id).moved = true)
    (hidx : (t.deref id).index = some j) :
    t.moveToEnd k = t.setObj id { t.deref id with moved := false } := by
  unfold Adapter.moveToEnd
  rw [hk]
  dsimp only
  rw [hidx]
  dsimp only
  rw [hmv, if_pos rfl, Adapter.setObj_setObj, hidx]

/-- `remove` under an unset-or-accurate cached index preserves the
invariant. -/
theorem Adapter.wf_remove [Inhabited ρ] {s : Adapter ρ} (h : s.Wf) {key : String}
    (hok : s.opOk (.remove key) = true) : (s.remove key).Wf := by
  cases hjg : jsGet s.keyMap key with
  | none =>
    have hempty : s.remove key = s := by
      unfold Adapter.remove
      rw [hjg]
    rw [hempty]
    exact h
  | some id =>
    have hacc : s.idxAccurate id = true := by
      have h0 : (match jsGet s.keyMap key with
          | none => true
          | some i => s.idxAccurate i) = true := hok
      rw [hjg] at h0
      exact h0
    have hid : id ∈ s.items := ((Adapter.wf_jsGet h key id).mp hjg).1
    have hkeq : (s.deref id).key = key := ((Adapter.wf_jsGet h key id).mp hjg).2
    cases hidx : (s.deref id).index with
    | some j =>
      have hacc' : (decide ((0:Int) ≤ j) && (s.items[j.toNat]? == some id)) = true := by
        have h0 := hacc
        unfold Adapter.idxAccurate at h0
        rw [hidx] at h0
        exact h0
      rw [Bool.and_eq_true] at hacc'
      have hj0 : (0:Int) ≤ j := of_decide_eq_true hacc'.1
      have hp : s.items[j.toNat]? = some id := by
        have h2 := hacc'.2
        rwa [beq_iff_eq] at h2
      rw [Adapter.remove_spec_someIdx hjg hidx hj0, ← hkeq]
      exact Adapter.wf_erase_core h hp
    | none =>
      obtain ⟨p, hpl, hgp⟩ := List.mem_iff_getElem.mp hid
      have hp : s.items[p]? = some id := by
        rw [List.getElem?_eq_getElem hpl, hgp]
      have hfind : s.findIndex id = (p : Int) := Adapter.findIndex_eq h.1 hp
      have hp' : s.items[(s.findIndex id).toNat]? = some id := by
        rw [hfind]
        simpa using hp
      rw [Adapter.remove_spec_noneIdx hjg hidx (by rw [hfind]; exact Int.natCast_nonneg p),
          ← hkeq]
      exact Adapter.wf_erase_core h hp'

/-- `moveToStart` on a marked record, or one with an unset-or-accurate
cached index, preserves the invariant. -/
theorem Adapter.wf_moveToStart [Inhabited ρ] {s : Adapter ρ} (h : s.Wf) {key : String}
    (hok : s.opOk (.moveToStart key) = true) : (s.moveToStart key).Wf := by
  cases hjg : jsGet s.keyMap key with
  | none =>
    have hempty : s.moveToStart key = s := by
      unfold Adapter.moveToStart
      rw [hjg]
    rw [hempty]
    exact h
  | some id =>
    have hid : id ∈ s.items := ((Adapter.wf_jsGet h key id).mp hjg).1
    cases hmv : (s.deref id).moved with
    | true =>
      cases hidx : (s.deref id).index with
      | none =>
        rw [Adapter.moveToStart_marked_none s key id hjg hmv hidx]
        exact Adapter.wf_setObj h rfl
      | some j =>
        rw [Adapter.moveToStart_marked_some s key id j hjg hmv hidx]
        exact Adapter.wf_setObj h rfl
    | false =>
      have hacc : s.idxAccurate id = true := by
        have h0 : (match jsGet s.keyMap key with
            | none => true
            | some i => (s.deref i).moved || s.idxAccurate i) = true := hok
        rw [hjg] at h0
        have h1 : ((s.deref id).moved || s.idxAccurate id) = true := h0
        rw [hmv, Bool.false_or] at h1
        exact h1
      cases hidx : (s.deref id).index with
      | some j =>
        have hacc' : (decide ((0:Int) ≤ j) && (s.items[j.toNat]? == some id)) = true := by
          have h0 := hacc
          unfold Adapter.idxAccurate at h0
          rw [hidx] at h0
          exact h0
        rw [Bool.and_eq_true] at hacc'
        have hp : s.items[j.toNat]? = some id := by
          have h2 := hacc'.2
          rwa [beq_iff_eq] at h2
        rw [Adapter.moveToStart_spec_someIdx hjg hidx hmv]
        by_cases h0 : (0:Int) < j
        · rw [if_pos h0]
          exact Adapter.wf_perm (Adapter.wf_setObj h rfl)
            (by rw [Adapter.setObj_items]; exact perm_cons_eraseIdx hp)
        · rw [if_neg h0]
          exact Adapter.wf_setObj h rfl
      | none =>
        obtain ⟨p, hpl, hgp⟩ := List.mem_iff_getElem.mp hid
        have hp : s.items[p]? = some id := by
          rw [List.getElem?_eq_getElem hpl, hgp]
        have hfind : s.findIndex id = (p : Int) := Adapter.findIndex_eq h.1 hp
        have hp' : s.items[(s.findIndex id).toNat]? = some id := by
          rw [hfind]
          simpa using hp
        rw [Adapter.moveToStart_spec_noneIdx hjg hidx hmv]
        have hwf1 : (s.setObj id { s.deref id with index := some (s.findIndex id) }).Wf :=
          Adapter.wf_setObj h rfl
        by_cases h0 : (0:Int) < s.findIndex id
        · rw [if_pos h0]
          exact Adapter.wf_perm hwf1
            (by rw [Adapter.setObj_items]; exact perm_cons_eraseIdx hp')
        · rw [if_neg h0]
          exact hwf1

/-- `moveToEnd` on a marked record, or one with an unset-or-accurate cached
index, preserves the invariant. -/
theorem Adapter.wf_moveToEnd [Inhabited ρ] {s : Adapter ρ} (h : s.Wf) {key : String}
    (hok : s.opOk (.moveToEnd key) = true) : (s.moveToEnd key).Wf := by
  cases hjg : jsGet s.keyMap key with
  | none =>
    have hempty : s.moveToEnd key = s := by
      unfold Adapter.moveToEnd
      rw [hjg]
    rw [hempty]
    exact h
  | some id =>
    have hid : id ∈ s.items := ((Adapter.wf_jsGet h key id).mp hjg).1
    cases hmv : (s.deref id).moved with
    | true =>
      cases hidx : (s.deref id).index with
      | none =>
        rw [Adapter.moveToEnd_marked_none s key id hjg hmv hidx]
        exact Adapter.wf_setObj h rfl
      | some j =>
        rw [Adapter.moveToEnd_marked_some s key id j hjg hmv hidx]
        exact Adapter.wf_setObj h rfl
    | false =>
      have hacc : s.idxAccurate id = true := by
        have h0 : (match jsGet s.keyMap key with
            | none => true
            | some i => (s.deref i).moved || s.idxAccurate i) = true := hok
        rw [hjg] at h0
        have h1 : ((s.deref id).moved || s.idxAccurate id) = true := h0
        rw [hmv, Bool.false_or] at h1
        exact h1
      cases hidx : (s.deref id).index with
      | some j =>
        have hacc' : (decide ((0:Int) ≤ j) && (s.items[j.toNat]? == some id)) = true := by
          have h0 := hacc
          unfold Adapter.idxAccurate at h0
          rw [hidx] at h0
          exact h0
        rw [Bool.and_eq_true] at hacc'
        have hp : s.items[j.toNat]? = some id := by
          have h2 := hacc'.2
          rwa [beq_iff_eq] at h2
        rw [Adapter.moveToEnd_spec_someIdx hjg hidx hmv]
        by_cases h0 : j < (s.items.length : Int) - 1
        · rw [if_pos h0]
          refine Adapter.wf_perm (Adapter.wf_setObj h rfl) ?_
          rw [Adapter.setObj_items]
          exact (List.perm_append_singleton id _).trans (perm_cons_eraseIdx hp)
        · rw [if_neg h0]
          exact Adapter.wf_setObj h rfl
      | none =>
        obtain ⟨p, hpl, hgp⟩ := List.mem_iff_getElem.mp hid
        have hp : s.items[p]? = some id := by
          rw [List.getElem?_eq_getElem hpl, hgp]
        have hfind : s.findIndex id = (p : Int) := Adapter.findIndex_eq h.1 hp
        have hp' : s.items[(s.findIndex id).toNat]? = some id := by
          rw [hfind]
          simpa using hp
        rw [Adapter.moveToEnd_spec_noneIdx hjg hidx hmv]
        have hwf1 : (s.setObj id { s.deref id with index := some (s.findIndex id) }).Wf :=
          Adapter.wf_setObj h rfl
        by_cases h0 : s.findIndex id < (s.items.length : Int) - 1
        · rw [if_pos h0]
          refine Adapter.wf_perm hwf1 ?_
          rw [Adapter.setObj_items]
          exact (List.perm_append_singleton id _).trans (perm_cons_eraseIdx hp')
        · rw [if_neg h0]
          exact hwf1

/-- `moveAfter` on a marked record, or one whose passed `currIdx` is its
true current position, preserves the invariant. -/
theorem Adapter.wf_moveAfter [Inhabited ρ] {s : Adapter ρ} (h : s.Wf)
    {key prevKey : String} {currIdx prevItemIdx : Nat}
    (hok : s.opOk (.moveAfter key prevKey currIdx prevItemIdx) = true) :
    (s.moveAfter key prevKey currIdx prevItemIdx).Wf := by
  cases hjg : jsGet s.keyMap key with
  | none =>
    have hempty : s.moveAfter key prevKey currIdx prevItemIdx = s := by
      unfold Adapter.moveAfter
      rw [hjg]
    rw [hempty]
    exact h
  | some id =>
    cases hmv : (s.deref id).moved with
    | true =>
      rw [Adapter.moveAfter_marked s key prevKey currIdx prevItemIdx id hjg hmv]
      exact Adapter.wf_setObj h rfl
    | false =>
      have hp : s.items[currIdx]? = some id := by
        have h0 : (match jsGet s.keyMap key with
            | none => true
            | some i => (s.deref i).moved || (s.items[currIdx]? == some i)) = true := hok
        rw [hjg] at h0
        have h1 : ((s.deref id).moved || (s.items[currIdx]? == some id)) = true := h0
        rw [hmv, Bool.false_or, beq_iff_eq] at h1
        exact h1
      have hsh : s.moveAfter key prevKey currIdx prevItemIdx
          = { s with items := ((jsInsertIdx (prevItemIdx + 1) id s.items).eraseIdx
              (currIdx + (if prevItemIdx + 1 > currIdx then 0 else 1))) } := by
        unfold Adapter.moveAfter
        rw [hjg]
        simp only [hmv, Bool.false_eq_true, if_false]
      rw [hsh]
      exact Adapter.wf_perm h (perm_moveAfter_splice hp)

end Motown
namespace Motown

variable {ρ : Type}

/-- Each single well-behaved operation preserves the invariant. -/
theorem Adapter.wf_applyOp [Inhabited ρ] {s : Adapter ρ} (h : s.Wf) {op : Op ρ}
    (hok : s.opOk op = true) : (s.applyOp op).Wf := by
  cases op with
  | insertAtEnd key data => exact Adapter.wf_insertAtEnd h hok
  | remove key => exact Adapter.wf_remove h hok
  | moveToStart key => exact Adapter.wf_moveToStart h hok
  | moveToEnd key => exact Adapter.wf_moveToEnd h hok
  | moveAfter key prevKey currIdx prevItemIdx => exact Adapter.wf_moveAfter h hok

/-- A well-behaved trace preserves the invariant end to end. -/
theorem Adapter.wf_applyOps [Inhabited ρ] :
    ∀ (ops : List (Op ρ)) (s : Adapter ρ), s.Wf → s.traceOk ops = true →
    (s.applyOps ops).Wf := by
  intro ops
  induction ops with
  | nil =>
    intro s h _
    exact h
  | cons op rest ih =>
    intro s h hok
    have hok' : (s.opOk op && (s.applyOp op).traceOk rest) = true := hok
    rw [Bool.and_eq_true] at hok'
    show ((s.applyOp op).applyOps rest).Wf
    exact ih _ (Adapter.wf_applyOp h hok'.1) hok'.2

/-- A prefix of a well-behaved trace is well behaved. -/
theorem Adapter.traceOk_prefix [Inhabited ρ] :
    ∀ (pre suf : List (Op ρ)) (s : Adapter ρ), s.traceOk (pre ++ suf) = true →
    s.traceOk pre = true := by
  intro pre
  induction pre with
  | nil =>
    intro suf s _
    rfl
  | cons op rest ih =>
    intro suf s h
    have h' : (s.opOk op && (s.applyOp op).traceOk (rest ++ suf)) = true := h
    rw [Bool.and_eq_true] at h'
    show (s.opOk op && (s.applyOp op).traceOk rest) = true
    rw [Bool.and_eq_true]
    exact ⟨h'.1, ih suf _ h'.2⟩

end Motown
namespace Motown

variable {ρ : Type}

/-- C1 (amended): for a store built from records with pairwise-distinct
truthy keys, the key-to-record mapping and the ordered sequence remain in
bijection after every operation of a trace of `insertAtEnd` / `remove` /
`moveToStart` / `moveToEnd` / `moveAfter` calls, provided each operation is
well behaved in the state it runs in: `insertAtEnd` derives a fresh truthy
key, `moveAfter` is passed the record's true current index, and `remove` /
`moveToStart` / `moveToEnd` run while the record's cached index is unset,
accurate, or its `_moved` marker is set (operations on absent keys are
always allowed).  Without those provisos the invariant is refutable
(`C1_counterexample`): the operations splice at a stale cached index. -/
theorem C1_bijection [Inhabited ρ] (keyProp : ρ → String) (raws : List ρ)
    (ops pre suf : List (Op ρ))
    (hkeys : (raws.map keyProp).Nodup)
    (htruthy : ∀ r ∈ raws, keyProp r ≠ "")
    (hops : (mkAdapter keyProp (.arr raws)).traceOk ops = true)
    (hsplit : ops = pre ++ suf) :
    ((mkAdapter keyProp (.arr raws)).applyOps pre).bijection := by
  subst hsplit
  have hpre := Adapter.traceOk_prefix pre suf _ hops
  exact (Adapter.wf_applyOps pre _ (wf_mkAdapter keyProp raws hkeys htruthy) hpre).2.2.2.2

/-- Witness for C1 at a concrete trace: from `[{key:"a",v:1},{key:"b",v:2}]`
run `insertAtEnd(null, {key:"c",v:3})`, `remove("a")`, `moveToEnd("b")`; the
bijection holds after the second operation (a proper prefix of the trace). -/
theorem C1_bijection_witness :
    ((mkAdapter RItem.key (.arr [RItem.mk "a" 1, RItem.mk "b" 2])).applyOps
      [Op.insertAtEnd none (RItem.mk "c" 3), Op.remove "a"]).bijection :=
  C1_bijection RItem.key [RItem.mk "a" 1, RItem.mk "b" 2]
    [Op.insertAtEnd none (RItem.mk "c" 3), Op.remove "a", Op.moveToEnd "b"]
    [Op.insertAtEnd none (RItem.mk "c" 3), Op.remove "a"]
    [Op.moveToEnd "b"]
    (by decide) (by decide) (by decide) rfl

/-- C1 (counterexample to the unconditional claim): on the store built from
the distinct truthy keys `a`, `b`, the trace `moveToEnd("a"); remove("a")`
breaks the bijection: `moveToEnd` relocates `a`'s record to the tail but
leaves its cached index at the stale pre-move value `0`, and `remove("a")`
then splices position `0` — evicting `b`'s record from the sequence while
deleting `a`'s map entry.  The final state's sequence holds exactly the
record with key `a` while its mapping holds exactly the key `b`. -/
theorem C1_counterexample :
    (([RItem.mk "a" 1, RItem.mk "b" 2].map RItem.key).Nodup
      ∧ ∀ r ∈ [RItem.mk "a" 1, RItem.mk "b" 2], RItem.key r ≠ "")
    ∧ ¬ ((mkAdapter RItem.key (.arr [RItem.mk "a" 1, RItem.mk "b" 2])).applyOps
          [Op.moveToEnd "a", Op.remove "a"]).bijection := by
  constructor
  · exact ⟨by decide, by decide⟩
  · unfold Adapter.bijection
    decide

end Motown
